import Mathlib

/-!
# go-smtp-dispatcher: envelope session and fan-out delivery

A shallow embedding of `dispatcher.go`.

* The session methods `Reset`, `Mail`, `Rcpt`, `Data`, `Logout` and `forwardTo`
  become functions on an explicit `session` record.
* `Worker` and `Client` are Go interfaces implemented outside the package.  A
  worker is its `Accept` predicate together with the handle `NewClient` returns
  (`none` for a nil handle).  A client is a reply function: given the operations
  already performed on the handle and the next operation, it says whether that
  operation fails.  Every finite run of a handle is described by such a function.
  A client also says what it leaves in the options record whose address
  `forwardTo` passes to its `Mail`.
* Effects are recorded instead of performed.  `forwardTo` returns its error
  together with the chronological trace of what it did: handle operations with
  their results and `Read` calls on the reader it was given.  `Data` returns its
  error, the `Accept`/`NewClient` calls made on the registry, the `Read` calls
  made on the input stream and one attempt per `forwardTo` call.
* In the multi-match branch the attempts run in goroutines.  Each goroutine owns
  its handle and its own `bytes.Reader`, and reads the session only, so the
  trace of one attempt does not depend on the schedule; `Data` records the
  attempts per worker.  The interleaving of `Data` with its goroutines and the
  `sync.WaitGroup` that joins them is a step relation of its own (`fanOutStep`),
  with `forwardTo` as one step of a goroutine.
* Library code used by the package (`io.Copy`, `ioutil.ReadAll`,
  `bytes.NewReader`, `sync.WaitGroup`, `smtp.MailOptions`) is modelled after its
  documented behaviour; the assumptions are stated at each definition.
-/

namespace Dispatcher

/-- One octet of a message body. -/
abbrev Byte := UInt8

/-- A non-nil Go `error` value; a Go result of type `error` is an `Option Error`
with `none` for `nil`. -/
abbrev Error := String

/-- Modelled from the spec: `smtp.MailOptions` is declared by the go-smtp
library, not by this package; the spec calls it opaque transaction metadata
(size hints, extensions).  The fields follow the library's struct; the Go zero
value `smtp.MailOptions{}` is the record of defaults. -/
structure MailOptions where
  body : String := ""
  size : Int := 0
  requireTLS : Bool := false
  utf8 : Bool := false
  auth : Option String := none
deriving DecidableEq

/-- Modelled from the spec: `smtp.ConnectionState` is declared by the go-smtp
library; the backend never inspects it. -/
structure ConnectionState where
  hostname : String := ""
  localAddr : String := ""
  remoteAddr : String := ""
  tls : Bool := false
deriving DecidableEq

/-- Modelled from the spec: `smtp.ErrAuthUnsupported`, the library's error for an
unsupported authentication attempt. -/
def ErrAuthUnsupported : Error := "502 5.7.0 Authentication not supported"

/-- An operation on a delivery handle: the four methods of the `Client`
interface, and `Write`/`Close` on the `io.WriteCloser` returned by `Data`. -/
inductive Op where
  | mail (sender : String) (opts : MailOptions)
  | rcpt (to_ : String)
  | data
  | write (bs : List Byte)
  | close
  | quit
deriving DecidableEq

/-- The `Client` interface.  `reply done op` is the error returned by `op` when
the operations `done` were performed on the handle before it.  Writers are
taken to honour the `io.Writer` contract (a nil error means the whole slice was
written), so `Write` is described by its error alone.  A handle observes its own
calls only.  `Mail` receives a pointer to the session's options (`&s.opts`), and
a handle may write through it: `leaves done o` is the content of that record
after the handle performed the operations `done` of one attempt, when the
record held `o` before; a handle that only reads the record leaves `o`. -/
structure Client where
  reply : List Op → Op → Option Error
  leaves : List Op → MailOptions → MailOptions := fun _ o => o

/-- The `Worker` interface: the routing predicate and the handle returned by
`NewClient` (`none` is a nil `Client`). -/
structure Worker where
  accept : String → MailOptions → List String → Bool
  newClient : Option Client

/-- The result of one `Read` call: some bytes with a nil error, `io.EOF`, or
another error. -/
inductive ReadResult where
  | chunk (bs : List Byte)
  | eof
  | fail (e : Error)
deriving DecidableEq

/-- An `io.Reader` over a finite stream: the slices returned by its successful
`Read` calls in order, and how the stream ends (`none` for `io.EOF`, `some e` for
a read error `e`).  A `Read` that returns bytes together with an error is the
same to `io.Copy` and `ioutil.ReadAll` as the bytes followed by the error. -/
structure Reader where
  chunks : List (List Byte)
  ending : Option Error

/-- The bytes of the stream, in order. -/
def Reader.bytes (r : Reader) : List Byte :=
  r.chunks.foldr (fun ch acc => ch ++ acc) []

/-- The result of the `Read` call that follows the last chunk. -/
def Reader.last (ending : Option Error) : ReadResult :=
  match ending with
  | none => .eof
  | some e => .fail e

/-- One entry of the trace of a delivery attempt. -/
inductive Step where
  | op (o : Op) (err : Option Error)
  | read (res : ReadResult)
deriving DecidableEq

/-- The handle operations of a trace, in order. -/
def opsOf : List Step → List Op
  | [] => []
  | .op o _ :: rest => o :: opsOf rest
  | .read _ :: rest => opsOf rest

/-- The `Read` results of a trace, in order. -/
def readsOf : List Step → List ReadResult
  | [] => []
  | .op _ _ :: rest => readsOf rest
  | .read res :: rest => res :: readsOf rest

/-- The slices passed to `Write`, concatenated in order. -/
def writtenBytes : List Step → List Byte
  | [] => []
  | .op (.write bs) _ :: rest => bs ++ writtenBytes rest
  | _ :: rest => writtenBytes rest

/-- The handle operations of a trace that returned a non-nil error. -/
def failedOps : List Step → List Op
  | [] => []
  | .op o (some _) :: rest => o :: failedOps rest
  | _ :: rest => failedOps rest

/-- Perform `o` on the handle `c` after the trace `tr`. -/
def call (c : Client) (tr : List Step) (o : Op) : List Step × Option Error :=
  let err := c.reply (opsOf tr) o
  (tr ++ [.op o err], err)

/-- What `forwardTo` returns and what it did. -/
structure Attempt where
  err : Option Error
  trace : List Step
deriving DecidableEq

/-- A call made by `Data` on a worker of the registry, by position. -/
inductive Call where
  | accept (w : Nat) (sender : String) (opts : MailOptions) (to_ : List String) (ok : Bool)
  | newClient (w : Nat)
deriving DecidableEq

/-- What `Data` returns and what it did. -/
structure DataResult where
  err : Option Error
  calls : List Call
  inputReads : List ReadResult
  attempts : List (Nat × Attempt)
deriving DecidableEq

/-- The `Backend` struct. -/
structure Backend where
  Workers : List Worker

/-- The `session` struct. -/
structure session where
  workers : List Worker
  from_ : String
  opts : MailOptions
  to_ : List String

/-- Method `Login`: rejects all auth attempts. -/
def Backend.Login (_be : Backend) (_state : ConnectionState) (_username _password : String) :
    Option session × Option Error :=
  (none, some ErrAuthUnsupported)

/-- Method `AnonymousLogin`: accepts any attempt. -/
def Backend.AnonymousLogin (be : Backend) (_state : ConnectionState) :
    Option session × Option Error :=
  (some { workers := be.Workers, from_ := "", opts := {}, to_ := [] }, none)

/-- Method `Reset`: discards the currently processed message. -/
def session.Reset (s : session) : session :=
  { s with from_ := "", opts := {}, to_ := [] }

/-- Method `Mail`: stores sender and options. -/
def session.Mail (s : session) (from_ : String) (opts : MailOptions) : session × Option Error :=
  ({ s with from_ := from_, opts := opts }, none)

/-- Method `Rcpt`: appends a recipient. -/
def session.Rcpt (s : session) (to_ : String) : session × Option Error :=
  ({ s with to_ := s.to_ ++ [to_] }, none)

/-- Method `Logout`: does nothing. -/
def session.Logout (_s : session) : Option Error :=
  none

/-- The loop `for _, to_ := range s.to_` of `forwardTo`: stop at the first failing
`Rcpt`. -/
def rcptLoop (c : Client) : List String → List Step → List Step × Option Error
  | [], tr => (tr, none)
  | to_ :: rest, tr =>
    let (tr1, err) := call c tr (.rcpt to_)
    match err with
    | some e => (tr1, some e)
    | none => rcptLoop c rest tr1

/-- Library `io.Copy(wc, r)`: read a slice, write it if it is not empty, until the reader
reports `io.EOF` (result nil) or a read or write fails (result that error).  The
`WriterTo`/`ReaderFrom` shortcuts of `io.Copy` are taken to move the same bytes
with the same result as this loop. -/
def ioCopy (c : Client) (ending : Option Error) : List (List Byte) → List Step →
    List Step × Option Error
  | [], tr => (tr ++ [.read (Reader.last ending)], ending)
  | ch :: rest, tr =>
    let tr1 := tr ++ [.read (.chunk ch)]
    if ch.isEmpty then ioCopy c ending rest tr1
    else
      let (tr2, ew) := call c tr1 (.write ch)
      match ew with
      | some e => (tr2, some e)
      | none => ioCopy c ending rest tr2

/-- The body of `forwardTo` after `defer c.Quit()`. -/
def session.deliver (s : session) (c : Client) (r : Reader) : Attempt :=
  let (t1, err) := call c [] (.mail s.from_ s.opts)
  match err with
  | some e => { err := some e, trace := t1 }
  | none =>
    let (t2, err) := rcptLoop c s.to_ t1
    match err with
    | some e => { err := some e, trace := t2 }
    | none =>
      let (t3, err) := call c t2 .data
      match err with
      | some e => { err := some e, trace := t3 }
      | none =>
        let (t4, err) := ioCopy c r.ending r.chunks t3
        match err with
        | some e => { err := some e, trace := (call c t4 .close).1 }
        | none =>
          let (t5, err) := call c t4 .close
          { err := err, trace := t5 }

/-- Method `forwardTo`: nothing for a nil handle; otherwise the delivery, then the
deferred `Quit`, whose result is dropped. -/
def session.forwardTo (s : session) (c : Option Client) (r : Reader) : Attempt :=
  match c with
  | none => { err := none, trace := [] }
  | some c =>
    let a := s.deliver c r
    { err := a.err, trace := (call c a.trace .quit).1 }

/-- The matching loop of `Data` from registry position `i` on: the accepting
workers with their positions, and the `Accept` calls made. -/
def matchLoop (s : session) : Nat → List Worker → List (Nat × Worker) × List Call
  | _, [] => ([], [])
  | i, c :: rest =>
    let ok := c.accept s.from_ s.opts s.to_
    let (clients, calls) := matchLoop s (i + 1) rest
    (if ok then (i, c) :: clients else clients, .accept i s.from_ s.opts s.to_ ok :: calls)

/-- Library `ioutil.ReadAll(r)`: the bytes read, the error (nil at `io.EOF`), and the
`Read` calls made. -/
def ReadAll (r : Reader) : List Byte × Option Error × List ReadResult :=
  (r.bytes, r.ending, r.chunks.map .chunk ++ [Reader.last r.ending])

/-- Library `bytes.NewReader(buf)`: a reader that yields `buf` and then `io.EOF`; the
whole buffer comes in one slice, as `bytes.Reader.WriteTo` hands it to one `Write`. -/
def bytesNewReader (buf : List Byte) : Reader :=
  { chunks := if buf.isEmpty then [] else [buf], ending := none }

/-- Method `Data`: match, then drop, stream to the single match, or buffer and fan out. -/
def session.Data (s : session) (r : Reader) : DataResult :=
  let (clients, calls) := matchLoop s 0 s.workers
  match clients with
  | [] => { err := none, calls := calls, inputReads := [], attempts := [] }
  | [(i, c)] =>
    let a := s.forwardTo c.newClient r
    { err := a.err, calls := calls ++ [.newClient i], inputReads := readsOf a.trace,
      attempts := [(i, a)] }
  | c1 :: c2 :: more =>
    let (buf, err, reads) := ReadAll r
    match err with
    | some e => { err := some e, calls := calls, inputReads := reads, attempts := [] }
    | none =>
      let all := c1 :: c2 :: more
      { err := none, calls := calls ++ all.map (fun p => .newClient p.1), inputReads := reads,
        attempts := all.map (fun p => (p.1, s.forwardTo p.2.newClient (bytesNewReader buf))) }

/-- A protocol command delivered to the session by the server. -/
inductive Cmd where
  | Reset
  | Mail (from_ : String) (opts : MailOptions)
  | Rcpt (to_ : String)
  | Data (r : Reader)

/-- The content of the session's options after the attempt on the handle `c`,
when the record held `o` before: `forwardTo` hands `&s.opts` to `c.Mail` and
uses the record no more, so what the handle leaves there is what the session
holds; a nil handle is never called. -/
def session.optsAfter (s : session) (c : Option Client) (r : Reader) (o : MailOptions) :
    MailOptions :=
  match c with
  | none => o
  | some c => c.leaves (opsOf (s.forwardTo (some c) r).trace) o

/-- The content of `s.opts` when `Data` returns.  `Data` and `forwardTo` assign
no field of the session; only a contacted handle can change the record, through
the pointer given to its `Mail`.  In the multi-match branch the attempts share
the record; the content given here is the one left when the handles write in
registry order, and it is `s.opts` for every order when no handle writes. -/
def session.optsAfterData (s : session) (r : Reader) : MailOptions :=
  match (matchLoop s 0 s.workers).1 with
  | [] => s.opts
  | [(_, c)] => s.optsAfter c.newClient r s.opts
  | c1 :: c2 :: more =>
    match r.ending with
    | some _ => s.opts
    | none =>
      (c1 :: c2 :: more).foldl
        (fun o p => s.optsAfter p.2.newClient (bytesNewReader r.bytes) o) s.opts

/-- One session callback: the session afterwards and the error returned
(`Reset` returns nothing; `Data` assigns no field of the session, whose options
are what the contacted handles left in them). -/
def session.step (s : session) : Cmd → session × Option Error
  | .Reset => (s.Reset, none)
  | .Mail f o => s.Mail f o
  | .Rcpt to_ => s.Rcpt to_
  | .Data r => ({ s with opts := s.optsAfterData r }, (s.Data r).err)

/-- A sequence of callbacks: the final session and the errors returned. -/
def session.run (s : session) : List Cmd → session × List (Option Error)
  | [] => (s, [])
  | cmd :: rest =>
    let (s1, e) := s.step cmd
    let (s2, es) := s1.run rest
    (s2, e :: es)

/-- The argument triples of the `Accept` calls. -/
def acceptArgs : List Call → List (String × MailOptions × List String)
  | [] => []
  | .accept _ f o t _ :: rest => (f, o, t) :: acceptArgs rest
  | .newClient _ :: rest => acceptArgs rest

/-- The registry positions on which `NewClient` was called. -/
def newClientCalls : List Call → List Nat
  | [] => []
  | .accept _ _ _ _ _ :: rest => newClientCalls rest
  | .newClient w :: rest => w :: newClientCalls rest

/-- The registry positions of the workers that accept the session's envelope. -/
def session.accepting (s : session) : List (Nat × Worker) :=
  (matchLoop s 0 s.workers).1

/-- The arguments of the `Mail` operations, in order. -/
def mailArgs : List Op → List (String × MailOptions)
  | [] => []
  | .mail f o :: rest => (f, o) :: mailArgs rest
  | _ :: rest => mailArgs rest

/-- The arguments of the `Rcpt` operations, in order. -/
def rcptArgs : List Op → List String
  | [] => []
  | .rcpt t :: rest => t :: rcptArgs rest
  | _ :: rest => rcptArgs rest

/-- The envelope `(f, o, rs)` is what `Data` showed to the outside: every `Accept`
call received exactly `(f, o, rs)`, every `Mail` on a handle received `(f, o)`,
and the `Rcpt` calls on a handle received an initial segment of `rs`, in order. -/
def DataResult.presents (res : DataResult) (f : String) (o : MailOptions) (rs : List String) :
    Prop :=
  (∀ x ∈ acceptArgs res.calls, x = (f, o, rs)) ∧
  ∀ p ∈ res.attempts,
    (∀ x ∈ mailArgs (opsOf p.2.trace), x = (f, o)) ∧ rcptArgs (opsOf p.2.trace) <+: rs

instance (res : DataResult) (f : String) (o : MailOptions) (rs : List String) :
    Decidable (res.presents f o rs) := by
  unfold DataResult.presents
  infer_instance

/-- A handle on which every operation succeeds. -/
def okClient : Client :=
  { reply := fun _ _ => none }

/-- A handle on which only `Quit` fails. -/
def quitFailClient : Client :=
  { reply := fun _ o => match o with
      | .quit => some "quit failed"
      | _ => none }

/-- A handle on which only `Data` (opening the body writer) fails. -/
def dataFailClient : Client :=
  { reply := fun _ o => match o with
      | .data => some "data refused"
      | _ => none }

/-- A handle on which every operation fails. -/
def failingClient : Client :=
  { reply := fun _ _ => some "refused" }

/-- A worker that accepts every envelope and returns the handle `c`. -/
def acceptAll (c : Option Client) : Worker :=
  { accept := fun _ _ _ => true, newClient := c }

/-- A worker that accepts no envelope. -/
def acceptNone : Worker :=
  { accept := fun _ _ _ => false, newClient := some okClient }

/-- A three-byte body delivered in three reads, the second one empty. -/
def exampleBody : Reader :=
  { chunks := [[104, 105], [], [10]], ending := none }

/-- A body whose stream breaks after one byte. -/
def brokenBody : Reader :=
  { chunks := [[104]], ending := some "connection reset" }

/-- A session over the registry `ws` holding sender `a@x` and two recipients. -/
def exampleSession (ws : List Worker) : session :=
  { workers := ws, from_ := "a@x", opts := {}, to_ := ["b@y", "c@z"] }

/-- A session over the registry `ws` with an empty envelope. -/
def idleSession (ws : List Worker) : session :=
  { workers := ws, from_ := "", opts := {}, to_ := [] }

/-- The error a step ended with: the error of a handle operation, or the error
of a `Read` that failed (`io.EOF` is not a failure). -/
def Step.failure : Step → Option Error
  | .op _ err => err
  | .read (.fail e) => some e
  | .read _ => none

/-- The error of the first failing step of a trace, `none` when no step fails. -/
def firstError : List Step → Option Error
  | [] => none
  | st :: rest =>
    match st.failure with
    | some e => some e
    | none => firstError rest

/-- The trace of `Rcpt` calls that all succeed, one per recipient, in order. -/
def rcptSteps (tos : List String) : List Step :=
  tos.map (fun t => Step.op (Op.rcpt t) none)

/-- The trace of a copy whose writes all succeed: each slice is read, and written
when it is not empty. -/
def copySteps : List (List Byte) → List Step
  | [] => []
  | ch :: rest =>
    if ch.isEmpty then Step.read (.chunk ch) :: copySteps rest
    else Step.read (.chunk ch) :: Step.op (.write ch) none :: copySteps rest

/-- The `Write` calls of a complete copy: one per non-empty slice, in order. -/
def writeOps (chunks : List (List Byte)) : List Op :=
  (chunks.filter (fun ch => !ch.isEmpty)).map Op.write

/-- The results recorded in the trace `tr` are those of the handle `c`: each
handle operation in `tr` carries the reply of `c` to that operation after the
operations recorded before it. -/
def Client.recorded (c : Client) (tr : List Step) : Prop :=
  ∀ pre o e post, tr = pre ++ Step.op o e :: post → e = c.reply (opsOf pre) o

/-- A handle on which every operation succeeds and whose `Mail` writes the size
`99` into the options record it is given. -/
def sizeWriterClient : Client :=
  { reply := fun _ _ => none, leaves := fun _ o => { o with size := 99 } }

/-- A handle on which the second `Rcpt` fails. -/
def secondRcptFailClient : Client :=
  { reply := fun done o => match done, o with
      | [_, _], .rcpt _ => some "rcpt refused"
      | _, _ => none }

/-! ## The fan-out as interleaved goroutines -/

/-- A goroutine started by the fan-out loop of `Data` for the worker at registry
position `w`: created by the `go` statement with the handle `c`; then
`forwardTo` has returned the attempt `a`; then the deferred `wg.Done()` has
run. -/
inductive Task where
  | started (w : Nat) (c : Option Client)
  | forwarded (w : Nat) (a : Attempt)
  | finished (w : Nat) (a : Attempt)

/-- Where the goroutine running `Data` stands in the multi-match branch, after
the body was buffered: at the head of the loop with `rest` still to start;
between `wg.Add(1)` and the `go` statement for `p`; at `wg.Wait()`; after
`return nil`. -/
inductive Pc where
  | loop (rest : List (Nat × Worker))
  | spawn (p : Nat × Worker) (rest : List (Nat × Worker))
  | wait
  | returned

/-- The state of the fan-out: the position of `Data`, the counter of the
`sync.WaitGroup`, and the goroutines started so far, in the order of their
start. -/
structure FanOut where
  pc : Pc
  wg : Nat
  tasks : List Task

/-- A choice of the scheduler: let `Data` take its next step, or the goroutine
number `k`. -/
inductive Sched where
  | main
  | task (k : Nat)

/-- The state in which `Data` enters the loop over the matched workers. -/
def fanOutInit (clients : List (Nat × Worker)) : FanOut :=
  { pc := .loop clients, wg := 0, tasks := [] }

/-- One step of the chosen goroutine, `none` when it cannot move.  `Data`:
`wg.Add(1)`; the `go` statement, which evaluates `c.NewClient()` and starts the
goroutine; leaving the loop; `wg.Wait()`, which passes only when the counter is
zero.  A started goroutine: `forwardTo` on its handle over a fresh reader on the
buffer, then `wg.Done()`, which decrements the counter (a counter below zero is
a panic in `sync.WaitGroup`). -/
def fanOutStep (s : session) (buf : List Byte) (st : FanOut) : Sched → Option FanOut
  | .main =>
    match st.pc with
    | .loop [] => some { st with pc := .wait }
    | .loop (p :: rest) => some { st with pc := .spawn p rest, wg := st.wg + 1 }
    | .spawn p rest =>
      some { st with pc := .loop rest, tasks := st.tasks ++ [.started p.1 p.2.newClient] }
    | .wait => if st.wg = 0 then some { st with pc := .returned } else none
    | .returned => none
  | .task k =>
    match st.tasks[k]? with
    | some (.started w c) =>
      some { st with tasks := st.tasks.set k (.forwarded w (s.forwardTo c (bytesNewReader buf))) }
    | some (.forwarded w a) =>
      if st.wg = 0 then none
      else some { st with wg := st.wg - 1, tasks := st.tasks.set k (.finished w a) }
    | _ => none

/-- Run a schedule: `none` when one of its choices cannot move. -/
def fanOutRun (s : session) (buf : List Byte) : FanOut → List Sched → Option FanOut
  | st, [] => some st
  | st, x :: xs =>
    match fanOutStep s buf st x with
    | none => none
    | some st1 => fanOutRun s buf st1 xs

/-- The workers the loop has still to start. -/
def Pc.rest : Pc → List (Nat × Worker)
  | .loop rest => rest
  | .spawn p rest => p :: rest
  | _ => []

/-- One when `wg.Add(1)` has run for a goroutine that is not started yet. -/
def Pc.added : Pc → Nat
  | .spawn _ _ => 1
  | _ => 0

/-- The number of goroutines that have not run `wg.Done()` yet. -/
def runningCount : List Task → Nat
  | [] => 0
  | .finished _ _ :: ts => runningCount ts
  | _ :: ts => runningCount ts + 1

/-- The goroutine `t` belongs to the matched worker `p`: it holds the handle of
`p`, or the attempt `forwardTo` makes on that handle. -/
def taskOf (s : session) (buf : List Byte) (p : Nat × Worker) (t : Task) : Prop :=
  t = .started p.1 p.2.newClient ∨
  t = .forwarded p.1 (s.forwardTo p.2.newClient (bytesNewReader buf)) ∨
  t = .finished p.1 (s.forwardTo p.2.newClient (bytesNewReader buf))

/-- The goroutines `ts` belong to the workers `ps`, one each, in order. -/
def tasksOf (s : session) (buf : List Byte) : List (Nat × Worker) → List Task → Prop
  | [], [] => True
  | p :: ps, t :: ts => taskOf s buf p t ∧ tasksOf s buf ps ts
  | _, _ => False

/-- The invariant of the fan-out over the matched workers `clients`: the started
goroutines belong to an initial segment of `clients`, the loop has the others
still to start, the counter of the wait group is the number of goroutines
that have not run `wg.Done()` (plus the one announced by `wg.Add(1)`), and the
counter is zero once `Data` has returned. -/
def fanOutInv (s : session) (buf : List Byte) (clients : List (Nat × Worker)) (st : FanOut) :
    Prop :=
  ∃ begun, clients = begun ++ st.pc.rest ∧ tasksOf s buf begun st.tasks ∧
    st.wg = runningCount st.tasks + st.pc.added ∧ (st.pc = .returned → st.wg = 0)

/-- The steps a goroutine has still to take. -/
def Task.stepsLeft : Task → Nat
  | .started _ _ => 2
  | .forwarded _ _ => 1
  | .finished _ _ => 0

/-- The steps the started goroutines have still to take. -/
def tasksLeft : List Task → Nat
  | [] => 0
  | t :: ts => t.stepsLeft + tasksLeft ts

/-- The steps the fan-out has still to take, those of `Data` and of the
goroutines started or to be started. -/
def FanOut.stepsLeft (st : FanOut) : Nat :=
  tasksLeft st.tasks +
    match st.pc with
    | .loop rest => 4 * rest.length + 2
    | .spawn _ rest => 4 * rest.length + 5
    | .wait => 1
    | .returned => 0

/-! ## Traces -/

@[simp] theorem opsOf_append (a b : List Step) : opsOf (a ++ b) = opsOf a ++ opsOf b := by
  induction a with
  | nil => rfl
  | cons x xs ih => cases x <;> simp [opsOf, ih]

@[simp] theorem readsOf_append (a b : List Step) : readsOf (a ++ b) = readsOf a ++ readsOf b := by
  induction a with
  | nil => rfl
  | cons x xs ih => cases x <;> simp [readsOf, ih]

@[simp] theorem writtenBytes_append (a b : List Step) :
    writtenBytes (a ++ b) = writtenBytes a ++ writtenBytes b := by
  induction a with
  | nil => rfl
  | cons x xs ih =>
    cases x with
    | op o e => cases o <;> simp [writtenBytes, ih]
    | read res => simp [writtenBytes, ih]

@[simp] theorem failedOps_append (a b : List Step) :
    failedOps (a ++ b) = failedOps a ++ failedOps b := by
  induction a with
  | nil => rfl
  | cons x xs ih =>
    cases x with
    | op o e => cases e <;> simp [failedOps, ih]
    | read res => simp [failedOps, ih]

/-- What the recipient loop appends to the trace. -/
theorem rcptLoop_spec (c : Client) (tos : List String) (tr : List Step) :
    ∃ suf, (rcptLoop c tos tr).1 = tr ++ suf ∧ readsOf suf = [] ∧ writtenBytes suf = [] ∧
      (∃ k, opsOf suf = (tos.take k).map Op.rcpt) ∧
      ((rcptLoop c tos tr).2 = none → opsOf suf = tos.map Op.rcpt) ∧
      ((rcptLoop c tos tr).2 = none ↔ failedOps suf = []) := by
  induction tos generalizing tr with
  | nil => exact ⟨[], by simp [rcptLoop, readsOf, writtenBytes, opsOf, failedOps]⟩
  | cons t rest ih =>
    cases hr : c.reply (opsOf tr) (.rcpt t) with
    | some e =>
      refine ⟨[.op (.rcpt t) (some e)], ?_⟩
      simp [rcptLoop, call, hr, readsOf, writtenBytes, opsOf, failedOps]
      exact ⟨1, by simp⟩
    | none =>
      obtain ⟨suf, h1, h2, h3, ⟨k, h4⟩, h5, h6⟩ := ih (tr ++ [.op (.rcpt t) none])
      refine ⟨.op (.rcpt t) none :: suf, ?_⟩
      simp only [rcptLoop, call, hr]
      refine ⟨by simpa using h1, by simpa [readsOf] using h2, by simpa [writtenBytes] using h3,
        ⟨k + 1, by simp [opsOf, h4]⟩, ?_, ?_⟩
      · intro h; simp [opsOf, h5 h]
      · simpa [failedOps] using h6

/-- What `io.Copy` appends to the trace. -/
theorem ioCopy_spec (c : Client) (ending : Option Error) (chunks : List (List Byte))
    (tr : List Step) :
    ∃ suf, (ioCopy c ending chunks tr).1 = tr ++ suf ∧
      (∀ o ∈ opsOf suf, ∃ bs, o = Op.write bs) ∧
      (failedOps suf = [] → (ioCopy c ending chunks tr).2 = ending ∧
        writtenBytes suf = chunks.foldr (fun ch acc => ch ++ acc) [] ∧
        readsOf suf = chunks.map ReadResult.chunk ++ [Reader.last ending]) ∧
      ((ioCopy c ending chunks tr).2 = none → failedOps suf = [] ∧ ending = none) := by
  induction chunks generalizing tr with
  | nil =>
    exact ⟨[.read (Reader.last ending)], by simp [ioCopy, readsOf, writtenBytes, opsOf, failedOps]⟩
  | cons ch rest ih =>
    by_cases hch : ch.isEmpty = true
    · obtain ⟨suf, h1, h2, h3, h4⟩ := ih (tr ++ [.read (.chunk ch)])
      refine ⟨.read (.chunk ch) :: suf, ?_⟩
      have hnil : ch = [] := by simpa using hch
      simp only [ioCopy, hch, if_true]
      refine ⟨by simpa using h1, by simpa [opsOf] using h2, ?_, ?_⟩
      · intro hf
        obtain ⟨e1, e2, e3⟩ := h3 (by simpa [failedOps] using hf)
        refine ⟨e1, ?_, ?_⟩
        · simp [writtenBytes, e2, hnil]
        · simp [readsOf, e3]
      · intro he
        simpa [failedOps] using h4 he
    · cases hr : c.reply (opsOf tr) (.write ch) with
      | some e =>
        refine ⟨[.read (.chunk ch), .op (.write ch) (some e)], ?_⟩
        simp [ioCopy, hch, call, hr, opsOf, failedOps]
      | none =>
        obtain ⟨suf, h1, h2, h3, h4⟩ :=
          ih (tr ++ [.read (.chunk ch)] ++ [.op (.write ch) none])
        refine ⟨.read (.chunk ch) :: .op (.write ch) none :: suf, ?_⟩
        have hr2 : c.reply (opsOf (tr ++ [Step.read (.chunk ch)])) (.write ch) = none := by
          simpa [opsOf] using hr
        simp only [ioCopy, hch, call, hr2]
        refine ⟨by simpa using h1, ?_, ?_, ?_⟩
        · intro o ho
          simp only [opsOf, List.mem_cons] at ho
          rcases ho with rfl | ho
          · exact ⟨ch, rfl⟩
          · exact h2 o ho
        · intro hf
          obtain ⟨e1, e2, e3⟩ := h3 (by simpa [failedOps] using hf)
          refine ⟨e1, ?_, ?_⟩
          · simp [writtenBytes, e2]
          · simp [readsOf, e3]
        · intro he
          simpa [failedOps] using h4 he


@[simp] theorem mailArgs_append (a b : List Op) : mailArgs (a ++ b) = mailArgs a ++ mailArgs b := by
  induction a with
  | nil => rfl
  | cons x xs ih => cases x <;> simp [mailArgs, ih]

@[simp] theorem rcptArgs_append (a b : List Op) : rcptArgs (a ++ b) = rcptArgs a ++ rcptArgs b := by
  induction a with
  | nil => rfl
  | cons x xs ih => cases x <;> simp [rcptArgs, ih]

theorem rcptArgs_map_rcpt (l : List String) : rcptArgs (l.map Op.rcpt) = l := by
  induction l with
  | nil => rfl
  | cons x xs ih => simp [rcptArgs, ih]

theorem mailArgs_map_rcpt (l : List String) : mailArgs (l.map Op.rcpt) = [] := by
  induction l with
  | nil => rfl
  | cons x xs ih => simp [mailArgs, ih]

theorem only_writes (l : List Op) (h : ∀ o ∈ l, ∃ bs, o = Op.write bs) :
    mailArgs l = [] ∧ rcptArgs l = [] ∧ Op.quit ∉ l := by
  induction l with
  | nil => simp [mailArgs, rcptArgs]
  | cons x xs ih =>
    obtain ⟨bs, rfl⟩ := h x (by simp)
    have := ih (fun o ho => h o (by simp [ho]))
    simp [mailArgs, rcptArgs, this]

theorem deliver_mail_fail (s : session) (c : Client) (r : Reader) (e : Error)
    (h1 : c.reply [] (.mail s.from_ s.opts) = some e) :
    s.deliver c r = { err := some e, trace := [.op (.mail s.from_ s.opts) (some e)] } := by
  simp [session.deliver, call, opsOf, h1]

theorem deliver_rcpt_fail (s : session) (c : Client) (r : Reader) (e : Error) (t2 : List Step)
    (h1 : c.reply [] (.mail s.from_ s.opts) = none)
    (h2 : rcptLoop c s.to_ [.op (.mail s.from_ s.opts) none] = (t2, some e)) :
    s.deliver c r = { err := some e, trace := t2 } := by
  simp [session.deliver, call, opsOf, h1, h2]

theorem deliver_data_fail (s : session) (c : Client) (r : Reader) (e : Error) (t2 : List Step)
    (h1 : c.reply [] (.mail s.from_ s.opts) = none)
    (h2 : rcptLoop c s.to_ [.op (.mail s.from_ s.opts) none] = (t2, none))
    (h3 : c.reply (opsOf t2) .data = some e) :
    s.deliver c r = { err := some e, trace := t2 ++ [.op .data (some e)] } := by
  simp [session.deliver, call, opsOf, h1, h2, h3]

theorem deliver_copy_fail (s : session) (c : Client) (r : Reader) (e : Error)
    (t2 t4 : List Step)
    (h1 : c.reply [] (.mail s.from_ s.opts) = none)
    (h2 : rcptLoop c s.to_ [.op (.mail s.from_ s.opts) none] = (t2, none))
    (h3 : c.reply (opsOf t2) .data = none)
    (h4 : ioCopy c r.ending r.chunks (t2 ++ [.op .data none]) = (t4, some e)) :
    s.deliver c r =
      { err := some e, trace := t4 ++ [.op .close (c.reply (opsOf t4) .close)] } := by
  simp [session.deliver, call, opsOf, h1, h2, h3, h4]

theorem deliver_copy_ok (s : session) (c : Client) (r : Reader) (t2 t4 : List Step)
    (h1 : c.reply [] (.mail s.from_ s.opts) = none)
    (h2 : rcptLoop c s.to_ [.op (.mail s.from_ s.opts) none] = (t2, none))
    (h3 : c.reply (opsOf t2) .data = none)
    (h4 : ioCopy c r.ending r.chunks (t2 ++ [.op .data none]) = (t4, none)) :
    s.deliver c r =
      { err := c.reply (opsOf t4) .close,
        trace := t4 ++ [.op .close (c.reply (opsOf t4) .close)] } := by
  simp [session.deliver, call, opsOf, h1, h2, h3, h4]

/-- What the body of `forwardTo` does on a non-nil handle. -/
theorem deliver_spec (s : session) (c : Client) (r : Reader) :
    Op.quit ∉ opsOf (s.deliver c r).trace ∧
    ((s.deliver c r).err = none → failedOps (s.deliver c r).trace = [] ∧ r.ending = none) ∧
    (failedOps (s.deliver c r).trace = [] →
      (s.deliver c r).err = r.ending ∧ writtenBytes (s.deliver c r).trace = r.bytes ∧
      readsOf (s.deliver c r).trace = r.chunks.map ReadResult.chunk ++ [Reader.last r.ending] ∧
      rcptArgs (opsOf (s.deliver c r).trace) = s.to_) ∧
    mailArgs (opsOf (s.deliver c r).trace) = [(s.from_, s.opts)] ∧
    (∃ k, rcptArgs (opsOf (s.deliver c r).trace) = s.to_.take k) := by
  cases h1 : c.reply [] (.mail s.from_ s.opts) with
  | some e1 =>
    rw [deliver_mail_fail s c r e1 h1]
    refine ⟨?_, ?_, ?_, ?_, 0, ?_⟩ <;> simp [opsOf, failedOps, mailArgs, rcptArgs]
  | none =>
    obtain ⟨sufR, r1, r2, r3, ⟨k, r4⟩, r5, r6⟩ :=
      rcptLoop_spec c s.to_ [.op (.mail s.from_ s.opts) none]
    rcases hR : rcptLoop c s.to_ [.op (.mail s.from_ s.opts) none] with ⟨t2, e2⟩
    rw [hR] at r1 r5 r6
    simp only at r1 r5 r6
    subst r1
    have hq : Op.quit ∉ opsOf sufR := by
      intro h
      rw [r4] at h
      obtain ⟨x, _, hx⟩ := List.mem_map.mp h
      cases hx
    have hm : mailArgs (opsOf sufR) = [] := by rw [r4]; exact mailArgs_map_rcpt _
    have hk : rcptArgs (opsOf sufR) = s.to_.take k := by rw [r4]; exact rcptArgs_map_rcpt _
    cases e2 with
    | some e2 =>
      have hne : failedOps sufR ≠ [] := fun h => by simpa using r6.mpr h
      rw [deliver_rcpt_fail s c r e2 _ h1 hR]
      refine ⟨?_, ?_, ?_, ?_, k, ?_⟩ <;>
        simp [opsOf, failedOps, mailArgs, rcptArgs, hq, hm, hk, hne]
    | none =>
      have hf : failedOps sufR = [] := r6.mp rfl
      have ho : rcptArgs (opsOf sufR) = s.to_ := by rw [r5 rfl]; exact rcptArgs_map_rcpt _
      cases h3 : c.reply (opsOf ([Step.op (.mail s.from_ s.opts) none] ++ sufR)) .data with
      | some e3 =>
        rw [deliver_data_fail s c r e3 _ h1 hR h3]
        refine ⟨?_, ?_, ?_, ?_, s.to_.length, ?_⟩ <;>
          simp [opsOf, failedOps, mailArgs, rcptArgs, hq, hm, ho, hf]
      | none =>
        obtain ⟨sufC, c1, c2, c3, c4⟩ := ioCopy_spec c r.ending r.chunks
          ([Step.op (.mail s.from_ s.opts) none] ++ sufR ++ [.op .data none])
        rcases hC : ioCopy c r.ending r.chunks
          ([Step.op (.mail s.from_ s.opts) none] ++ sufR ++ [.op .data none]) with ⟨t4, e4⟩
        rw [hC] at c1 c3 c4
        simp only at c1 c3 c4
        subst c1
        obtain ⟨wm, wr, wq⟩ := only_writes _ c2
        cases e4 with
        | some e4 =>
          rw [deliver_copy_fail s c r e4 _ _ h1 hR h3 hC]
          generalize c.reply (opsOf ([Step.op (.mail s.from_ s.opts) none] ++ sufR ++
            [.op .data none] ++ sufC)) .close = ec
          refine ⟨?_, ?_, ?_, ?_, s.to_.length, ?_⟩
          · simp [opsOf, hq, wq]
          · simp
          · intro hfail
            have hfc : failedOps sufC = [] := by
              simp only [failedOps_append, List.append_eq_nil] at hfail
              exact hfail.1.2
            obtain ⟨z1, z2, z3⟩ := c3 hfc
            simp [opsOf, rcptArgs, writtenBytes, readsOf, ho, wr, r2, r3, z1, z2, z3,
              Reader.bytes]
          · simp [opsOf, mailArgs, hm, wm]
          · simp [opsOf, rcptArgs, ho, wr]
        | none =>
          rw [deliver_copy_ok s c r _ _ h1 hR h3 hC]
          generalize c.reply (opsOf ([Step.op (.mail s.from_ s.opts) none] ++ sufR ++
            [.op .data none] ++ sufC)) .close = ec
          obtain ⟨hfc, hend⟩ := c4 rfl
          obtain ⟨z1, z2, z3⟩ := c3 hfc
          cases ec with
          | some e5 =>
            refine ⟨?_, ?_, ?_, ?_, s.to_.length, ?_⟩ <;>
              simp [opsOf, failedOps, mailArgs, rcptArgs, hq, hm, ho, hf, wm, wr, wq, hfc]
          | none =>
            refine ⟨?_, ?_, ?_, ?_, s.to_.length, ?_⟩ <;>
              simp [opsOf, failedOps, mailArgs, rcptArgs, writtenBytes, readsOf, hq, hm, ho, hf,
                wm, wr, wq, hfc, hend, r2, r3, z2, z3, Reader.bytes]


/-! ## The shape of a delivery trace -/

theorem rcptSteps_cons (t : String) (ts : List String) :
    rcptSteps (t :: ts) = Step.op (Op.rcpt t) none :: rcptSteps ts := rfl

/-- The recipient loop either performs every `Rcpt` with success, or stops at
the first failing one. -/
theorem rcptLoop_trace (c : Client) (tos : List String) (tr : List Step) :
    rcptLoop c tos tr = (tr ++ rcptSteps tos, none) ∨
    ∃ j t e, tos[j]? = some t ∧
      rcptLoop c tos tr = (tr ++ rcptSteps (tos.take j) ++ [Step.op (Op.rcpt t) (some e)], some e) := by
  induction tos generalizing tr with
  | nil => left; simp [rcptLoop, rcptSteps]
  | cons t rest ih =>
    cases hr : c.reply (opsOf tr) (.rcpt t) with
    | some e =>
      right
      exact ⟨0, t, e, by simp, by simp [rcptLoop, call, hr, rcptSteps]⟩
    | none =>
      have hstep : rcptLoop c (t :: rest) tr = rcptLoop c rest (tr ++ [Step.op (Op.rcpt t) none]) := by
        simp [rcptLoop, call, hr]
      rw [hstep]
      rcases ih (tr ++ [Step.op (Op.rcpt t) none]) with h | ⟨j, t', e, hj, h⟩
      · left
        rw [h, rcptSteps_cons]
        simp
      · right
        refine ⟨j + 1, t', e, by simpa using hj, ?_⟩
        rw [h, List.take_succ_cons, rcptSteps_cons]
        simp

theorem copySteps_nil_cons (ch : List Byte) (rest : List (List Byte)) (h : ch.isEmpty = true) :
    copySteps (ch :: rest) = Step.read (.chunk ch) :: copySteps rest := by
  simp [copySteps, h]

theorem copySteps_cons (ch : List Byte) (rest : List (List Byte)) (h : ¬ ch.isEmpty = true) :
    copySteps (ch :: rest) = Step.read (.chunk ch) :: Step.op (.write ch) none :: copySteps rest := by
  simp [copySteps, h]

/-- The copy either moves every slice and ends with the last `Read` of the
stream, or stops at the first failing `Write`. -/
theorem ioCopy_trace (c : Client) (ending : Option Error) (chunks : List (List Byte))
    (tr : List Step) :
    ioCopy c ending chunks tr =
      (tr ++ copySteps chunks ++ [Step.read (Reader.last ending)], ending) ∨
    ∃ j ch e, chunks[j]? = some ch ∧ ch.isEmpty = false ∧
      ioCopy c ending chunks tr =
        (tr ++ copySteps (chunks.take j) ++
          [Step.read (.chunk ch), Step.op (.write ch) (some e)], some e) := by
  induction chunks generalizing tr with
  | nil => left; simp [ioCopy, copySteps]
  | cons ch rest ih =>
    by_cases hch : ch.isEmpty = true
    · have hstep : ioCopy c ending (ch :: rest) tr =
          ioCopy c ending rest (tr ++ [Step.read (.chunk ch)]) := by
        simp [ioCopy, hch]
      rw [hstep]
      rcases ih (tr ++ [Step.read (.chunk ch)]) with h | ⟨j, ch', e, hj, hne, h⟩
      · left
        rw [h, copySteps_nil_cons ch rest hch]
        simp
      · right
        refine ⟨j + 1, ch', e, by simpa using hj, hne, ?_⟩
        rw [h, List.take_succ_cons, copySteps_nil_cons ch _ hch]
        simp
    · cases hr : c.reply (opsOf tr) (.write ch) with
      | some e =>
        right
        refine ⟨0, ch, e, by simp, by simpa using hch, ?_⟩
        simp [ioCopy, hch, call, hr, opsOf, copySteps]
      | none =>
        have hstep : ioCopy c ending (ch :: rest) tr =
            ioCopy c ending rest (tr ++ [Step.read (.chunk ch), Step.op (.write ch) none]) := by
          simp [ioCopy, hch, call, hr, opsOf]
        rw [hstep]
        rcases ih (tr ++ [Step.read (.chunk ch), Step.op (.write ch) none]) with
          h | ⟨j, ch', e, hj, hne, h⟩
        · left
          rw [h, copySteps_cons ch rest hch]
          simp
        · right
          refine ⟨j + 1, ch', e, by simpa using hj, hne, ?_⟩
          rw [h, List.take_succ_cons, copySteps_cons ch _ hch]
          simp


/-- The body of `forwardTo` on a non-nil handle stops in one of six ways: `Mail`
fails; the `Rcpt` at position `j` fails; `Data` fails; the `Write` of the slice
at position `j` fails; the stream ends with a read error; everything up to
`Close` runs.  In the last three the writer was opened and is closed. -/
theorem deliver_cases (s : session) (c : Client) (r : Reader) :
    (∃ e, s.deliver c r =
      { err := some e, trace := [Step.op (.mail s.from_ s.opts) (some e)] }) ∨
    (∃ j t e, s.to_[j]? = some t ∧ s.deliver c r =
      { err := some e,
        trace := [Step.op (.mail s.from_ s.opts) none] ++ rcptSteps (s.to_.take j) ++
          [Step.op (.rcpt t) (some e)] }) ∨
    (∃ e, s.deliver c r =
      { err := some e,
        trace := [Step.op (.mail s.from_ s.opts) none] ++ rcptSteps s.to_ ++
          [Step.op .data (some e)] }) ∨
    (∃ j ch e ec, r.chunks[j]? = some ch ∧ ch.isEmpty = false ∧ s.deliver c r =
      { err := some e,
        trace := [Step.op (.mail s.from_ s.opts) none] ++ rcptSteps s.to_ ++
          [Step.op .data none] ++ copySteps (r.chunks.take j) ++
          [Step.read (.chunk ch), Step.op (.write ch) (some e), Step.op .close ec] }) ∨
    (∃ e ec, r.ending = some e ∧ s.deliver c r =
      { err := some e,
        trace := [Step.op (.mail s.from_ s.opts) none] ++ rcptSteps s.to_ ++
          [Step.op .data none] ++ copySteps r.chunks ++
          [Step.read (.fail e), Step.op .close ec] }) ∨
    (∃ ec, r.ending = none ∧ s.deliver c r =
      { err := ec,
        trace := [Step.op (.mail s.from_ s.opts) none] ++ rcptSteps s.to_ ++
          [Step.op .data none] ++ copySteps r.chunks ++
          [Step.read .eof, Step.op .close ec] }) := by
  cases h1 : c.reply [] (.mail s.from_ s.opts) with
  | some e1 => exact Or.inl ⟨e1, deliver_mail_fail s c r e1 h1⟩
  | none =>
    right
    rcases rcptLoop_trace c s.to_ [Step.op (.mail s.from_ s.opts) none] with hR | ⟨j, t, e, hj, hR⟩
    · right
      cases h3 : c.reply (opsOf ([Step.op (.mail s.from_ s.opts) none] ++ rcptSteps s.to_)) .data with
      | some e3 => exact Or.inl ⟨e3, deliver_data_fail s c r e3 _ h1 hR h3⟩
      | none =>
        right
        rcases ioCopy_trace c r.ending r.chunks
          ([Step.op (.mail s.from_ s.opts) none] ++ rcptSteps s.to_ ++ [Step.op .data none])
          with hC | ⟨j, ch, e, hj, hne, hC⟩
        · right
          generalize htr : [Step.op (.mail s.from_ s.opts) none] ++ rcptSteps s.to_ ++
            [Step.op .data none] ++ copySteps r.chunks ++ [Step.read (Reader.last r.ending)] = t4
            at hC
          cases hend : r.ending with
          | some e =>
            rw [hend] at hC htr
            have hd := deliver_copy_fail s c r e _ _ h1 hR h3 (by rw [hend]; exact hC)
            refine Or.inl ⟨e, c.reply (opsOf t4) .close, rfl, ?_⟩
            rw [hd, ← htr]
            simp [Reader.last]
          | none =>
            rw [hend] at hC htr
            have hd := deliver_copy_ok s c r _ _ h1 hR h3 (by rw [hend]; exact hC)
            refine Or.inr ⟨c.reply (opsOf t4) .close, rfl, ?_⟩
            rw [hd, ← htr]
            simp [Reader.last]
        · generalize htr : [Step.op (.mail s.from_ s.opts) none] ++ rcptSteps s.to_ ++
            [Step.op .data none] ++ copySteps (r.chunks.take j) ++
            [Step.read (.chunk ch), Step.op (.write ch) (some e)] = t4 at hC
          have hd := deliver_copy_fail s c r e _ _ h1 hR h3 hC
          refine Or.inl ⟨j, ch, e, c.reply (opsOf t4) .close, hj, hne, ?_⟩
          rw [hd, ← htr]
          simp
    · exact Or.inl ⟨j, t, e, hj, deliver_rcpt_fail s c r e _ h1 hR⟩

theorem rcptSteps_failure (tos : List String) : ∀ x ∈ rcptSteps tos, x.failure = none := by
  intro x hx
  obtain ⟨t, _, rfl⟩ := List.mem_map.mp hx
  rfl

theorem copySteps_failure (chunks : List (List Byte)) : ∀ x ∈ copySteps chunks, x.failure = none := by
  induction chunks with
  | nil => simp [copySteps]
  | cons ch rest ih =>
    intro x hx
    by_cases hch : ch.isEmpty = true
    · rw [copySteps_nil_cons ch rest hch] at hx
      rcases List.mem_cons.mp hx with rfl | hx
      · rfl
      · exact ih x hx
    · rw [copySteps_cons ch rest hch] at hx
      rcases List.mem_cons.mp hx with rfl | hx
      · rfl
      · rcases List.mem_cons.mp hx with rfl | hx
        · rfl
        · exact ih x hx

@[simp] theorem opsOf_rcptSteps (tos : List String) : opsOf (rcptSteps tos) = tos.map Op.rcpt := by
  induction tos with
  | nil => rfl
  | cons t rest ih => rw [rcptSteps_cons]; simp [opsOf, ih]

@[simp] theorem readsOf_rcptSteps (tos : List String) : readsOf (rcptSteps tos) = [] := by
  induction tos with
  | nil => rfl
  | cons t rest ih => rw [rcptSteps_cons]; simp [readsOf, ih]

@[simp] theorem failedOps_rcptSteps (tos : List String) : failedOps (rcptSteps tos) = [] := by
  induction tos with
  | nil => rfl
  | cons t rest ih => rw [rcptSteps_cons]; simp [failedOps, ih]

@[simp] theorem opsOf_copySteps (chunks : List (List Byte)) :
    opsOf (copySteps chunks) = writeOps chunks := by
  induction chunks with
  | nil => rfl
  | cons ch rest ih =>
    by_cases hch : ch.isEmpty = true
    · rw [copySteps_nil_cons ch rest hch]
      simp [opsOf, ih, writeOps, hch]
    · rw [copySteps_cons ch rest hch]
      simp [opsOf, ih, writeOps, hch]

@[simp] theorem readsOf_copySteps (chunks : List (List Byte)) :
    readsOf (copySteps chunks) = chunks.map ReadResult.chunk := by
  induction chunks with
  | nil => rfl
  | cons ch rest ih =>
    by_cases hch : ch.isEmpty = true
    · rw [copySteps_nil_cons ch rest hch]
      simp [readsOf, ih]
    · rw [copySteps_cons ch rest hch]
      simp [readsOf, ih]

@[simp] theorem failedOps_copySteps (chunks : List (List Byte)) :
    failedOps (copySteps chunks) = [] := by
  induction chunks with
  | nil => rfl
  | cons ch rest ih =>
    by_cases hch : ch.isEmpty = true
    · rw [copySteps_nil_cons ch rest hch]
      simp [failedOps, ih]
    · rw [copySteps_cons ch rest hch]
      simp [failedOps, ih]

theorem firstError_append (a b : List Step) :
    firstError (a ++ b) = match firstError a with
      | some e => some e
      | none => firstError b := by
  induction a with
  | nil => rfl
  | cons x xs ih =>
    cases hx : x.failure with
    | some e => simp [firstError, hx]
    | none => simpa [firstError, hx] using ih

theorem firstError_clean (a : List Step) (h : ∀ x ∈ a, x.failure = none) : firstError a = none := by
  induction a with
  | nil => rfl
  | cons x xs ih =>
    simp only [firstError, h x (by simp)]
    exact ih (fun y hy => h y (by simp [hy]))

theorem firstError_clean_append (a b : List Step) (h : ∀ x ∈ a, x.failure = none) :
    firstError (a ++ b) = firstError b := by
  rw [firstError_append, firstError_clean a h]

/-- A step with property `P` that occurs in `a ++ b`, when no step of `a` has
`P`, occurs in `b`. -/
theorem split_after (P : Step → Prop) (a b pre post : List Step) (st : Step)
    (ha : ∀ x ∈ a, ¬ P x) (h : a ++ b = pre ++ st :: post) (hst : P st) :
    ∃ mid, pre = a ++ mid ∧ b = mid ++ st :: post := by
  induction a generalizing pre with
  | nil => exact ⟨pre, rfl, h⟩
  | cons x xs ih =>
    cases pre with
    | nil =>
      simp only [List.cons_append, List.nil_append, List.cons.injEq] at h
      exact absurd (h.1 ▸ hst) (ha x (by simp))
    | cons y ys =>
      simp only [List.cons_append, List.cons.injEq] at h
      obtain ⟨mid, h1, h2⟩ := ih ys (fun z hz => ha z (by simp [hz])) h.2
      exact ⟨mid, by rw [h.1, h1]; rfl, h2⟩

theorem split_one (x st : Step) (mid post : List Step) (h : [x] = mid ++ st :: post) :
    mid = [] ∧ st = x ∧ post = [] := by
  cases mid with
  | nil => simp at h; exact ⟨rfl, h.1.symm, h.2⟩
  | cons y ys => cases ys <;> simp at h

theorem split_two (x y st : Step) (mid post : List Step) (h : [x, y] = mid ++ st :: post) :
    (mid = [] ∧ st = x ∧ post = [y]) ∨ (mid = [x] ∧ st = y ∧ post = []) := by
  cases mid with
  | nil => simp at h; exact Or.inl ⟨rfl, h.1.symm, h.2.symm⟩
  | cons z zs =>
    simp only [List.cons_append, List.cons.injEq] at h
    obtain ⟨m, hs, hp⟩ := split_one y st zs post h.2
    exact Or.inr ⟨by rw [← h.1, m], hs, hp⟩

theorem take_succ_of_getElem? {α : Type} (l : List α) (j : Nat) (x : α) (h : l[j]? = some x) :
    l.take j ++ [x] = l.take (j + 1) := by
  rw [List.take_succ, h]
  rfl

theorem writeOps_take_succ (chunks : List (List Byte)) (j : Nat) (ch : List Byte)
    (h : chunks[j]? = some ch) (hne : ch.isEmpty = false) :
    writeOps (chunks.take j) ++ [Op.write ch] = writeOps (chunks.take (j + 1)) := by
  rw [← take_succ_of_getElem? chunks j ch h]
  simp [writeOps, hne]

theorem writeOps_take_initial (chunks : List (List Byte)) (n : Nat) :
    writeOps (chunks.take n) <+: writeOps chunks := by
  unfold writeOps
  exact ((List.take_prefix n chunks).filter _).map _

/-- The steps of a clean prefix followed by a failing step and at most a `Close`:
after a failing step, nothing or just the `Close` follows. -/
theorem halt_one (clean : List Step) (x : Step) (hclean : ∀ y ∈ clean, y.failure = none)
    (pre post : List Step) (st : Step) (h : clean ++ [x] = pre ++ st :: post)
    (hst : st.failure ≠ none) : st = x ∧ post = [] := by
  obtain ⟨mid, _, h2⟩ := split_after (fun y => y.failure ≠ none) clean [x] pre post st
    (fun y hy => by simp [hclean y hy]) h hst
  obtain ⟨_, h3, h4⟩ := split_one x st mid post h2
  exact ⟨h3, h4⟩

theorem halt_two (clean : List Step) (x y : Step) (hclean : ∀ z ∈ clean, z.failure = none)
    (pre post : List Step) (st : Step) (h : clean ++ [x, y] = pre ++ st :: post)
    (hst : st.failure ≠ none) : (st = x ∧ post = [y]) ∨ (st = y ∧ post = []) := by
  obtain ⟨mid, _, h2⟩ := split_after (fun z => z.failure ≠ none) clean [x, y] pre post st
    (fun z hz => by simp [hclean z hz]) h hst
  rcases split_two x y st mid post h2 with ⟨_, h3, h4⟩ | ⟨_, h3, h4⟩
  · exact Or.inl ⟨h3, h4⟩
  · exact Or.inr ⟨h3, h4⟩

theorem clean_head (s : session) (tos : List String) :
    ∀ x ∈ [Step.op (.mail s.from_ s.opts) none] ++ rcptSteps tos, x.failure = none := by
  intro x hx
  rcases List.mem_append.mp hx with hx | hx
  · simp only [List.mem_singleton] at hx; subst hx; rfl
  · exact rcptSteps_failure tos x hx

theorem clean_opened (s : session) (chunks : List (List Byte)) :
    ∀ x ∈ [Step.op (.mail s.from_ s.opts) none] ++ rcptSteps s.to_ ++ [Step.op .data none] ++
      copySteps chunks, x.failure = none := by
  intro x hx
  rcases List.mem_append.mp hx with hx | hx
  · rcases List.mem_append.mp hx with hx | hx
    · exact clean_head s s.to_ x hx
    · simp only [List.mem_singleton] at hx; subst hx; rfl
  · exact copySteps_failure chunks x hx

theorem rcptSteps_mem (tos : List String) (x : Step) (hx : x ∈ rcptSteps tos) :
    ∃ t, x = Step.op (Op.rcpt t) none := by
  obtain ⟨t, _, rfl⟩ := List.mem_map.mp hx
  exact ⟨t, rfl⟩

theorem copySteps_mem (chunks : List (List Byte)) (x : Step) (hx : x ∈ copySteps chunks) :
    (∃ ch, x = Step.read (.chunk ch)) ∨ (∃ ch, x = Step.op (Op.write ch) none) := by
  induction chunks with
  | nil => simp [copySteps] at hx
  | cons ch rest ih =>
    by_cases hch : ch.isEmpty = true
    · rw [copySteps_nil_cons ch rest hch] at hx
      rcases List.mem_cons.mp hx with rfl | hx
      · exact Or.inl ⟨ch, rfl⟩
      · exact ih hx
    · rw [copySteps_cons ch rest hch] at hx
      rcases List.mem_cons.mp hx with rfl | hx
      · exact Or.inl ⟨ch, rfl⟩
      · rcases List.mem_cons.mp hx with rfl | hx
        · exact Or.inr ⟨ch, rfl⟩
        · exact ih hx

/-- A read step of a trace whose head performs no `Read` lies behind the head. -/
theorem read_after_head (head tail pre post : List Step) (res : ReadResult)
    (hhead : readsOf head = []) (h : head ++ tail = pre ++ Step.read res :: post) :
    ∃ mid, pre = head ++ mid := by
  have hno : ∀ x ∈ head, ¬ (∃ q, x = Step.read q) := by
    intro x hx ⟨q, hq⟩
    subst hq
    obtain ⟨a, b, rfl⟩ := List.append_of_mem hx
    simp [readsOf] at hhead
  obtain ⟨mid, h1, _⟩ := split_after (fun x => ∃ q, x = Step.read q) head tail pre post _ hno h
    ⟨res, rfl⟩
  exact ⟨mid, h1⟩

theorem copySteps_only_writes (chunks : List (List Byte)) :
    ∀ o ∈ opsOf (copySteps chunks), ∃ bs, o = Op.write bs := by
  intro o ho
  rw [opsOf_copySteps] at ho
  obtain ⟨bs, _, rfl⟩ := List.mem_map.mp ho
  exact ⟨bs, rfl⟩

theorem recorded_nil (c : Client) : c.recorded [] := by
  intro pre o e post h
  cases pre <;> simp at h

theorem recorded_snoc (c : Client) (tr : List Step) (x : Step) (h : c.recorded tr)
    (hx : ∀ o e, x = Step.op o e → e = c.reply (opsOf tr) o) : c.recorded (tr ++ [x]) := by
  intro pre o e post hd
  rcases List.eq_nil_or_concat post with hp | ⟨post', y, hp⟩
  · subst hp
    have hd' : tr ++ [x] = pre ++ [Step.op o e] := hd
    obtain ⟨h1, h2⟩ := List.append_inj' hd' rfl
    subst h1
    exact hx o e (by simpa using h2)
  · subst hp
    have hd' : tr ++ [x] = (pre ++ Step.op o e :: post') ++ [y] := by simpa using hd
    obtain ⟨h1, _⟩ := List.append_inj' hd' rfl
    exact h pre o e post' h1

theorem recorded_read (c : Client) (tr : List Step) (res : ReadResult) (h : c.recorded tr) :
    c.recorded (tr ++ [Step.read res]) :=
  recorded_snoc c tr _ h (fun o e hx => by cases hx)

theorem recorded_call (c : Client) (tr : List Step) (o : Op) (h : c.recorded tr) :
    c.recorded (call c tr o).1 :=
  recorded_snoc c tr _ h (fun o' e hx => by cases hx; rfl)

theorem recorded_rcptLoop (c : Client) (tos : List String) (tr : List Step)
    (h : c.recorded tr) : c.recorded (rcptLoop c tos tr).1 := by
  induction tos generalizing tr with
  | nil => exact h
  | cons t rest ih =>
    have hc := recorded_call c tr (.rcpt t) h
    cases hr : c.reply (opsOf tr) (.rcpt t) with
    | some e =>
      have : (rcptLoop c (t :: rest) tr).1 = (call c tr (.rcpt t)).1 := by
        simp [rcptLoop, call, hr]
      rw [this]; exact hc
    | none =>
      have : rcptLoop c (t :: rest) tr = rcptLoop c rest (call c tr (.rcpt t)).1 := by
        simp [rcptLoop, call, hr]
      rw [this]; exact ih _ hc

theorem recorded_ioCopy (c : Client) (ending : Option Error) (chunks : List (List Byte))
    (tr : List Step) (h : c.recorded tr) : c.recorded (ioCopy c ending chunks tr).1 := by
  induction chunks generalizing tr with
  | nil => exact recorded_read c tr _ h
  | cons ch rest ih =>
    have hrd := recorded_read c tr (.chunk ch) h
    by_cases hch : ch.isEmpty = true
    · have : ioCopy c ending (ch :: rest) tr =
          ioCopy c ending rest (tr ++ [Step.read (.chunk ch)]) := by
        simp [ioCopy, hch]
      rw [this]; exact ih _ hrd
    · have hc := recorded_call c (tr ++ [Step.read (.chunk ch)]) (.write ch) hrd
      cases hr : c.reply (opsOf (tr ++ [Step.read (.chunk ch)])) (.write ch) with
      | some e =>
        have : (ioCopy c ending (ch :: rest) tr).1 =
            (call c (tr ++ [Step.read (.chunk ch)]) (.write ch)).1 := by
          simp only [ioCopy, hch, call, hr]; rfl
        rw [this]; exact hc
      | none =>
        have : ioCopy c ending (ch :: rest) tr =
            ioCopy c ending rest (call c (tr ++ [Step.read (.chunk ch)]) (.write ch)).1 := by
          simp only [ioCopy, hch, call, hr]; rfl
        rw [this]; exact ih _ hc

/-- The results in the trace of the body of `forwardTo` are the replies of the
handle. -/
theorem recorded_deliver (s : session) (c : Client) (r : Reader) :
    c.recorded (s.deliver c r).trace := by
  have h0 := recorded_call c [] (.mail s.from_ s.opts) (recorded_nil c)
  cases h1 : c.reply [] (.mail s.from_ s.opts) with
  | some e1 =>
    rw [deliver_mail_fail s c r e1 h1]
    simpa [call, opsOf, h1] using h0
  | none =>
    have h0' : c.recorded [Step.op (.mail s.from_ s.opts) none] := by
      simpa [call, opsOf, h1] using h0
    have hR := recorded_rcptLoop c s.to_ _ h0'
    rcases hRe : rcptLoop c s.to_ [Step.op (.mail s.from_ s.opts) none] with ⟨t2, e2⟩
    rw [hRe] at hR
    simp only at hR
    cases e2 with
    | some e2 =>
      rw [deliver_rcpt_fail s c r e2 t2 h1 hRe]
      exact hR
    | none =>
      have h3c := recorded_call c t2 .data hR
      cases h3 : c.reply (opsOf t2) .data with
      | some e3 =>
        rw [deliver_data_fail s c r e3 t2 h1 hRe h3]
        simpa only [call, h3] using h3c
      | none =>
        have h3' : c.recorded (t2 ++ [Step.op .data none]) := by
          simpa only [call, h3] using h3c
        have hC := recorded_ioCopy c r.ending r.chunks _ h3'
        rcases hCe : ioCopy c r.ending r.chunks (t2 ++ [Step.op .data none]) with ⟨t4, e4⟩
        rw [hCe] at hC
        simp only at hC
        have hcl := recorded_call c t4 .close hC
        cases e4 with
        | some e4 =>
          rw [deliver_copy_fail s c r e4 t2 t4 h1 hRe h3 hCe]
          exact hcl
        | none =>
          rw [deliver_copy_ok s c r t2 t4 h1 hRe h3 hCe]
          exact hcl

theorem recorded_forwardTo (s : session) (c : Client) (r : Reader) :
    c.recorded (s.forwardTo (some c) r).trace :=
  recorded_call c (s.deliver c r).trace .quit (recorded_deliver s c r)

/-! ## Matching -/

theorem matchLoop_clients (s : session) (ws : List Worker) (i : Nat) :
    (matchLoop s i ws).1.map Prod.snd = ws.filter (fun w => w.accept s.from_ s.opts s.to_) := by
  induction ws generalizing i with
  | nil => rfl
  | cons w rest ih =>
    have h := ih (i + 1)
    by_cases hw : w.accept s.from_ s.opts s.to_ = true
    · simp [matchLoop, hw, h]
    · simp [matchLoop, hw, h]

theorem matchLoop_newClientCalls (s : session) (ws : List Worker) (i : Nat) :
    newClientCalls (matchLoop s i ws).2 = [] := by
  induction ws generalizing i with
  | nil => rfl
  | cons w rest ih => simp [matchLoop, newClientCalls, ih]

theorem accepting_nil (s : session)
    (h : ∀ w ∈ s.workers, w.accept s.from_ s.opts s.to_ = false) : s.accepting = [] := by
  have h1 := matchLoop_clients s s.workers 0
  have h2 : s.workers.filter (fun w => w.accept s.from_ s.opts s.to_) = [] := by
    simp [List.filter_eq_nil_iff]
    exact h
  rw [h2] at h1
  simpa [session.accepting] using h1

theorem Data_eq (s : session) (r : Reader) : s.Data r =
    match s.accepting with
    | [] => { err := none, calls := (matchLoop s 0 s.workers).2, inputReads := [], attempts := [] }
    | [(i, c)] =>
      { err := (s.forwardTo c.newClient r).err,
        calls := (matchLoop s 0 s.workers).2 ++ [.newClient i],
        inputReads := readsOf (s.forwardTo c.newClient r).trace,
        attempts := [(i, s.forwardTo c.newClient r)] }
    | c1 :: c2 :: more =>
      match r.ending with
      | some e => { err := some e, calls := (matchLoop s 0 s.workers).2,
                    inputReads := (ReadAll r).2.2, attempts := [] }
      | none =>
        { err := none,
          calls := (matchLoop s 0 s.workers).2 ++ (c1 :: c2 :: more).map (fun p => .newClient p.1),
          inputReads := (ReadAll r).2.2,
          attempts := (c1 :: c2 :: more).map
            (fun p => (p.1, s.forwardTo p.2.newClient (bytesNewReader r.bytes))) } := by
  unfold session.Data session.accepting
  rcases hm : matchLoop s 0 s.workers with ⟨cl, calls⟩
  simp only [ReadAll]

theorem mem_matchLoop (s : session) (ws : List Worker) (j i : Nat) (w : Worker) :
    (i, w) ∈ (matchLoop s j ws).1 ↔
      (j ≤ i ∧ ws[i - j]? = some w ∧ w.accept s.from_ s.opts s.to_ = true) := by
  induction ws generalizing j with
  | nil => simp [matchLoop]
  | cons x rest ih =>
    have hrec := ih (j + 1)
    by_cases hij : i = j
    · subst hij
      have hno : (i, w) ∉ (matchLoop s (i + 1) rest).1 := by
        intro h
        have := (hrec.mp h).1
        omega
      by_cases hx : x.accept s.from_ s.opts s.to_ = true
      · simp only [matchLoop, hx, if_true, List.mem_cons, Prod.mk.injEq, true_and, hno, or_false,
          Nat.sub_self, List.getElem?_cons_zero, Option.some.injEq, Nat.le_refl]
        constructor
        · intro h; subst h; exact ⟨rfl, hx⟩
        · intro h; exact h.1.symm
      · have hif : (matchLoop s i (x :: rest)).1 = (matchLoop s (i + 1) rest).1 := by
          simp [matchLoop, hx]
        rw [hif]
        simp only [hno, Nat.sub_self, List.getElem?_cons_zero, Option.some.injEq,
          Nat.le_refl, true_and, false_iff, not_and]
        intro h; subst h; exact hx
    · have hne : (i, w) ≠ (j, x) := fun h => hij (by cases h; rfl)
      have hmem : (i, w) ∈ (matchLoop s j (x :: rest)).1 ↔ (i, w) ∈ (matchLoop s (j + 1) rest).1 := by
        by_cases hx : x.accept s.from_ s.opts s.to_ = true
        · simp [matchLoop, hx, hne]
        · simp [matchLoop, hx]
      rw [hmem, hrec]
      constructor
      · rintro ⟨h1, h2, h3⟩
        refine ⟨by omega, ?_, h3⟩
        have : i - j = (i - (j + 1)) + 1 := by omega
        rw [this, List.getElem?_cons_succ]
        exact h2
      · rintro ⟨h1, h2, h3⟩
        have hlt : j + 1 ≤ i := by omega
        refine ⟨hlt, ?_, h3⟩
        have : i - j = (i - (j + 1)) + 1 := by omega
        rw [this, List.getElem?_cons_succ] at h2
        exact h2


/-! ## The branches of `Data` -/

theorem accepting_map_snd (s : session) :
    s.accepting.map Prod.snd = s.workers.filter (fun w => w.accept s.from_ s.opts s.to_) :=
  matchLoop_clients s s.workers 0

theorem accepting_length (s : session) :
    s.accepting.length = (s.workers.filter (fun w => w.accept s.from_ s.opts s.to_)).length := by
  rw [← accepting_map_snd, List.length_map]

theorem mem_accepting (s : session) (i : Nat) (w : Worker) :
    (i, w) ∈ s.accepting ↔ (s.workers[i]? = some w ∧ w.accept s.from_ s.opts s.to_ = true) := by
  simpa [session.accepting] using mem_matchLoop s s.workers 0 i w

theorem accepting_single (s : session) (w : Worker)
    (h : s.workers.filter (fun w => w.accept s.from_ s.opts s.to_) = [w]) :
    ∃ i, s.accepting = [(i, w)] := by
  have hm := accepting_map_snd s
  rw [h] at hm
  match hacc : s.accepting, hm with
  | [(i, w')], hm =>
    simp only [List.map_cons, List.map_nil, List.cons.injEq, and_true] at hm
    exact ⟨i, by rw [hm]⟩

theorem accepting_many (s : session)
    (h : 2 ≤ (s.workers.filter (fun w => w.accept s.from_ s.opts s.to_)).length) :
    ∃ c1 c2 more, s.accepting = c1 :: c2 :: more := by
  rw [← accepting_length] at h
  match hacc : s.accepting, h with
  | c1 :: c2 :: more, _ => exact ⟨c1, c2, more, rfl⟩

theorem Data_zero (s : session) (r : Reader) (h : s.accepting = []) :
    s.Data r =
      { err := none, calls := (matchLoop s 0 s.workers).2, inputReads := [], attempts := [] } := by
  rw [Data_eq, h]

theorem Data_one (s : session) (r : Reader) (i : Nat) (w : Worker) (h : s.accepting = [(i, w)]) :
    s.Data r =
      { err := (s.forwardTo w.newClient r).err,
        calls := (matchLoop s 0 s.workers).2 ++ [.newClient i],
        inputReads := readsOf (s.forwardTo w.newClient r).trace,
        attempts := [(i, s.forwardTo w.newClient r)] } := by
  rw [Data_eq, h]

theorem Data_many_fail (s : session) (r : Reader) (c1 c2 : Nat × Worker)
    (more : List (Nat × Worker)) (e : Error) (h : s.accepting = c1 :: c2 :: more)
    (hr : r.ending = some e) :
    s.Data r =
      { err := some e, calls := (matchLoop s 0 s.workers).2,
        inputReads := r.chunks.map ReadResult.chunk ++ [Reader.last r.ending], attempts := [] } := by
  rw [Data_eq, h]
  simp only [hr, ReadAll]

theorem Data_many_ok (s : session) (r : Reader) (c1 c2 : Nat × Worker)
    (more : List (Nat × Worker)) (h : s.accepting = c1 :: c2 :: more)
    (hr : r.ending = none) :
    s.Data r =
      { err := none,
        calls := (matchLoop s 0 s.workers).2 ++ s.accepting.map (fun p => .newClient p.1),
        inputReads := r.chunks.map ReadResult.chunk ++ [Reader.last r.ending],
        attempts := s.accepting.map
          (fun p => (p.1, s.forwardTo p.2.newClient (bytesNewReader r.bytes))) } := by
  rw [Data_eq, h]
  simp only [hr, ReadAll]

theorem forwardTo_some (s : session) (c : Client) (r : Reader) :
    s.forwardTo (some c) r =
      { err := (s.deliver c r).err,
        trace := (s.deliver c r).trace ++
          [.op .quit (c.reply (opsOf (s.deliver c r).trace) .quit)] } := rfl

/-- Every attempt of `Data` is a `forwardTo` call on the handle of an accepting worker. -/
theorem attempts_mem (s : session) (r : Reader) (i : Nat) (a : Attempt)
    (h : (i, a) ∈ (s.Data r).attempts) :
    ∃ w rd, (i, w) ∈ s.accepting ∧ a = s.forwardTo w.newClient rd := by
  rw [Data_eq] at h
  split at h
  · simp at h
  · rename_i j w hacc
    simp only [List.mem_singleton, Prod.mk.injEq] at h
    exact ⟨w, r, by rw [hacc, h.1]; simp, h.2⟩
  · rename_i c1 c2 more hacc
    split at h
    · simp at h
    · rw [← hacc] at h
      obtain ⟨p, hp, hpe⟩ := List.mem_map.mp h
      simp only [Prod.mk.injEq] at hpe
      exact ⟨p.2, bytesNewReader r.bytes, by rw [← hpe.1]; exact hp, hpe.2.symm⟩

theorem acceptArgs_append (a b : List Call) : acceptArgs (a ++ b) = acceptArgs a ++ acceptArgs b := by
  induction a with
  | nil => rfl
  | cons x xs ih => cases x <;> simp [acceptArgs, ih]

theorem newClientCalls_append (a b : List Call) :
    newClientCalls (a ++ b) = newClientCalls a ++ newClientCalls b := by
  induction a with
  | nil => rfl
  | cons x xs ih => cases x <;> simp [newClientCalls, ih]

theorem acceptArgs_map_newClient (l : List (Nat × Worker)) :
    acceptArgs (l.map (fun p => Call.newClient p.1)) = [] := by
  induction l with
  | nil => rfl
  | cons x xs ih => simp [acceptArgs, ih]

theorem matchLoop_acceptArgs (s : session) (ws : List Worker) (i : Nat) :
    acceptArgs (matchLoop s i ws).2 = ws.map (fun _ => (s.from_, s.opts, s.to_)) := by
  induction ws generalizing i with
  | nil => rfl
  | cons w rest ih => simp [matchLoop, acceptArgs, ih]

theorem Data_acceptArgs (s : session) (r : Reader) :
    acceptArgs (s.Data r).calls = s.workers.map (fun _ => (s.from_, s.opts, s.to_)) := by
  rw [Data_eq]
  split
  · exact matchLoop_acceptArgs s s.workers 0
  · simp [acceptArgs_append, acceptArgs, matchLoop_acceptArgs]
  · split
    · exact matchLoop_acceptArgs s s.workers 0
    · rw [acceptArgs_append, acceptArgs_map_newClient, matchLoop_acceptArgs]
      simp

theorem forwardTo_envelope (s : session) (c : Option Client) (r : Reader) :
    (∀ x ∈ mailArgs (opsOf (s.forwardTo c r).trace), x = (s.from_, s.opts)) ∧
      rcptArgs (opsOf (s.forwardTo c r).trace) <+: s.to_ := by
  cases c with
  | none => simp [session.forwardTo, opsOf, mailArgs, rcptArgs]
  | some c =>
    obtain ⟨_, _, _, hm, k, hk⟩ := deliver_spec s c r
    rw [forwardTo_some]
    simp only [opsOf_append, mailArgs_append, rcptArgs_append, opsOf, mailArgs, rcptArgs, hm, hk,
      List.append_nil]
    exact ⟨by simp, List.take_prefix k s.to_⟩

/-- The envelope held by the session is the one `Data` presents. -/
theorem Data_presents (s : session) (r : Reader) :
    (s.Data r).presents s.from_ s.opts s.to_ := by
  refine ⟨?_, ?_⟩
  · intro x hx
    rw [Data_acceptArgs] at hx
    obtain ⟨_, _, rfl⟩ := List.mem_map.mp hx
    rfl
  · rintro ⟨i, a⟩ hp
    obtain ⟨w, rd, _, rfl⟩ := attempts_mem s r i a hp
    exact forwardTo_envelope s w.newClient rd

theorem matchLoop_enum (s : session) (ws : List Worker) (i : Nat) :
    matchLoop s i ws =
      ((ws.enumFrom i).filter (fun p => p.2.accept s.from_ s.opts s.to_),
       (ws.enumFrom i).map
        (fun p => Call.accept p.1 s.from_ s.opts s.to_ (p.2.accept s.from_ s.opts s.to_))) := by
  induction ws generalizing i with
  | nil => rfl
  | cons w rest ih =>
    by_cases hw : w.accept s.from_ s.opts s.to_ = true
    · simp [matchLoop, ih, hw, List.enumFrom]
    · simp [matchLoop, ih, hw, List.enumFrom]

theorem accepting_enum (s : session) :
    s.accepting = s.workers.enum.filter (fun p => p.2.accept s.from_ s.opts s.to_) := by
  simp [session.accepting, matchLoop_enum, List.enum]

theorem newClientCalls_map_accept (s : session) (l : List (Nat × Worker)) :
    newClientCalls (l.map
      (fun p => Call.accept p.1 s.from_ s.opts s.to_ (p.2.accept s.from_ s.opts s.to_))) = [] := by
  induction l with
  | nil => rfl
  | cons x xs ih => simp [newClientCalls, ih]

theorem newClientCalls_map_newClient (l : List Nat) :
    newClientCalls (l.map Call.newClient) = l := by
  induction l with
  | nil => rfl
  | cons x xs ih => simp [newClientCalls, ih]

theorem accepting_fst_increasing (s : session) :
    (s.accepting.map Prod.fst).Pairwise (fun a b => a < b) := by
  rw [accepting_enum]
  have hsub : ((s.workers.enum.filter (fun p => p.2.accept s.from_ s.opts s.to_)).map Prod.fst).Sublist
      (s.workers.enum.map Prod.fst) := List.Sublist.map _ (List.filter_sublist _)
  refine List.Pairwise.sublist hsub ?_
  rw [List.enum_map_fst]
  exact List.pairwise_lt_range _

/-! ## Sequences of callbacks -/

theorem run_rcpts (s : session) (rs : List String) :
    s.run (rs.map Cmd.Rcpt) =
      ({ s with to_ := s.to_ ++ rs }, List.replicate rs.length none) := by
  induction rs generalizing s with
  | nil => simp [session.run]
  | cons x xs ih =>
    simp only [List.map_cons, session.run, session.step, session.Rcpt, ih]
    simp [List.replicate_succ]

/-! ## Interleavings of the fan-out -/

theorem tasksOf_set_started (s : session) (buf : List Byte) (ps : List (Nat × Worker))
    (ts : List Task) (k w : Nat) (c : Option Client) (h : tasksOf s buf ps ts)
    (hk : ts[k]? = some (.started w c)) :
    tasksOf s buf ps (ts.set k (.forwarded w (s.forwardTo c (bytesNewReader buf)))) ∧
    runningCount (ts.set k (.forwarded w (s.forwardTo c (bytesNewReader buf)))) =
      runningCount ts ∧
    tasksLeft (ts.set k (.forwarded w (s.forwardTo c (bytesNewReader buf)))) + 1 =
      tasksLeft ts := by
  induction ts generalizing ps k with
  | nil => simp at hk
  | cons t rest ih =>
    cases ps with
    | nil => simp [tasksOf] at h
    | cons p ps =>
      obtain ⟨hp, hrest⟩ := h
      cases k with
      | zero =>
        simp only [List.getElem?_cons_zero, Option.some.injEq] at hk
        subst hk
        refine ⟨⟨?_, hrest⟩, by simp [runningCount], by simp [tasksLeft, Task.stepsLeft]; omega⟩
        rcases hp with hp | hp | hp
        · cases hp; exact Or.inr (Or.inl rfl)
        · cases hp
        · cases hp
      | succ k =>
        simp only [List.getElem?_cons_succ] at hk
        obtain ⟨h1, h2, h3⟩ := ih ps k hrest hk
        refine ⟨⟨hp, h1⟩, ?_, ?_⟩
        · cases t <;> simp [runningCount, h2]
        · simp only [List.set_cons_succ, tasksLeft]; omega

theorem tasksOf_set_forwarded (s : session) (buf : List Byte) (ps : List (Nat × Worker))
    (ts : List Task) (k w : Nat) (a : Attempt) (h : tasksOf s buf ps ts)
    (hk : ts[k]? = some (.forwarded w a)) :
    tasksOf s buf ps (ts.set k (.finished w a)) ∧
    runningCount (ts.set k (.finished w a)) + 1 = runningCount ts ∧
    tasksLeft (ts.set k (.finished w a)) + 1 = tasksLeft ts := by
  induction ts generalizing ps k with
  | nil => simp at hk
  | cons t rest ih =>
    cases ps with
    | nil => simp [tasksOf] at h
    | cons p ps =>
      obtain ⟨hp, hrest⟩ := h
      cases k with
      | zero =>
        simp only [List.getElem?_cons_zero, Option.some.injEq] at hk
        subst hk
        refine ⟨⟨?_, hrest⟩, by simp [runningCount], by simp [tasksLeft, Task.stepsLeft]; omega⟩
        rcases hp with hp | hp | hp
        · cases hp
        · cases hp; exact Or.inr (Or.inr rfl)
        · cases hp
      | succ k =>
        simp only [List.getElem?_cons_succ] at hk
        obtain ⟨h1, h2, h3⟩ := ih ps k hrest hk
        refine ⟨⟨hp, h1⟩, ?_, ?_⟩
        · cases t <;> simp [runningCount] <;> omega
        · simp only [List.set_cons_succ, tasksLeft]; omega

theorem tasksOf_append_started (s : session) (buf : List Byte) (ps : List (Nat × Worker))
    (ts : List Task) (p : Nat × Worker) (h : tasksOf s buf ps ts) :
    tasksOf s buf (ps ++ [p]) (ts ++ [.started p.1 p.2.newClient]) ∧
    runningCount (ts ++ [.started p.1 p.2.newClient]) = runningCount ts + 1 ∧
    tasksLeft (ts ++ [.started p.1 p.2.newClient]) = tasksLeft ts + 2 := by
  induction ts generalizing ps with
  | nil =>
    cases ps with
    | nil => exact ⟨⟨Or.inl rfl, trivial⟩, rfl, rfl⟩
    | cons q qs => simp [tasksOf] at h
  | cons t rest ih =>
    cases ps with
    | nil => simp [tasksOf] at h
    | cons q qs =>
      obtain ⟨hq, hrest⟩ := h
      obtain ⟨h1, h2, h3⟩ := ih qs hrest
      refine ⟨⟨hq, h1⟩, ?_, ?_⟩
      · cases t <;> simp [runningCount, h2]
      · show t.stepsLeft + tasksLeft (rest ++ [Task.started p.1 p.2.newClient]) =
          t.stepsLeft + tasksLeft rest + 2
        rw [h3]; omega

theorem tasksOf_all_finished (s : session) (buf : List Byte) (ps : List (Nat × Worker))
    (ts : List Task) (h : tasksOf s buf ps ts) (hz : runningCount ts = 0) :
    ts = ps.map (fun p => Task.finished p.1 (s.forwardTo p.2.newClient (bytesNewReader buf))) := by
  induction ts generalizing ps with
  | nil =>
    cases ps with
    | nil => rfl
    | cons q qs => simp [tasksOf] at h
  | cons t rest ih =>
    cases ps with
    | nil => simp [tasksOf] at h
    | cons q qs =>
      obtain ⟨hq, hrest⟩ := h
      rcases hq with hq | hq | hq
      · subst hq; simp [runningCount] at hz
      · subst hq; simp [runningCount] at hz
      · subst hq
        simp only [runningCount] at hz
        rw [List.map_cons, ← ih qs hrest hz]

theorem running_task (ts : List Task) (h : 0 < runningCount ts) :
    ∃ k : Nat, (∃ w c, ts[k]? = some (Task.started w c)) ∨
      (∃ w a, ts[k]? = some (Task.forwarded w a)) := by
  induction ts with
  | nil => simp [runningCount] at h
  | cons t rest ih =>
    cases t with
    | started w c => exact ⟨0, Or.inl ⟨w, c, by simp⟩⟩
    | forwarded w a => exact ⟨0, Or.inr ⟨w, a, by simp⟩⟩
    | finished w a =>
      obtain ⟨k, hk⟩ := ih (by simpa [runningCount] using h)
      exact ⟨k + 1, by simpa using hk⟩

theorem fanOutInv_init (s : session) (buf : List Byte) (clients : List (Nat × Worker)) :
    fanOutInv s buf clients (fanOutInit clients) :=
  ⟨[], rfl, trivial, rfl, fun h => by cases h⟩

/-- Every step of the fan-out keeps the invariant and takes one of the steps
left. -/
theorem fanOutStep_inv (s : session) (buf : List Byte) (clients : List (Nat × Worker))
    (st st1 : FanOut) (x : Sched) (hinv : fanOutInv s buf clients st)
    (hstep : fanOutStep s buf st x = some st1) :
    fanOutInv s buf clients st1 ∧ st1.stepsLeft + 1 = st.stepsLeft := by
  obtain ⟨begun, hcl, htasks, hwg, hret⟩ := hinv
  obtain ⟨pc, wg, tasks⟩ := st
  simp only at hcl htasks hwg hret
  cases x with
  | main =>
    cases pc with
    | loop rest =>
      cases rest with
      | nil =>
        simp only [fanOutStep, Option.some.injEq] at hstep
        subst hstep
        exact ⟨⟨begun, hcl, htasks, hwg, fun h => by cases h⟩, by simp [FanOut.stepsLeft]⟩
      | cons p rest =>
        simp only [fanOutStep, Option.some.injEq] at hstep
        subst hstep
        refine ⟨⟨begun, hcl, htasks, ?_, fun h => by cases h⟩, ?_⟩
        · simp only [Pc.added] at hwg ⊢; omega
        · simp only [FanOut.stepsLeft, List.length_cons]; omega
    | spawn p rest =>
      simp only [fanOutStep, Option.some.injEq] at hstep
      subst hstep
      obtain ⟨h1, h2, h3⟩ := tasksOf_append_started s buf begun tasks p htasks
      refine ⟨⟨begun ++ [p], by simpa [Pc.rest] using hcl, h1, ?_, fun h => by cases h⟩, ?_⟩
      · simp only [Pc.added] at hwg ⊢; omega
      · simp only [FanOut.stepsLeft, h3]; omega
    | wait =>
      by_cases hz : wg = 0
      · simp only [fanOutStep, hz, if_true, Option.some.injEq] at hstep
        subst hstep
        exact ⟨⟨begun, hcl, htasks, by simpa [hz, Pc.added] using hwg, fun _ => rfl⟩,
          by simp [FanOut.stepsLeft]⟩
      · simp [fanOutStep, hz] at hstep
    | returned => simp [fanOutStep] at hstep
  | task k =>
    cases hk : tasks[k]? with
    | none => simp [fanOutStep, hk] at hstep
    | some t =>
      cases t with
      | started w c =>
        simp only [fanOutStep, hk, Option.some.injEq] at hstep
        subst hstep
        obtain ⟨h1, h2, h3⟩ := tasksOf_set_started s buf begun tasks k w c htasks hk
        refine ⟨⟨begun, hcl, h1, by simpa [h2] using hwg, hret⟩, ?_⟩
        simp only [FanOut.stepsLeft]; omega
      | forwarded w a =>
        by_cases hz : wg = 0
        · simp [fanOutStep, hk, hz] at hstep
        · simp only [fanOutStep, hk, hz, if_false, Option.some.injEq] at hstep
          subst hstep
          obtain ⟨h1, h2, h3⟩ := tasksOf_set_forwarded s buf begun tasks k w a htasks hk
          refine ⟨⟨begun, hcl, h1, ?_, fun h => absurd (hret h) hz⟩, ?_⟩
          · simp only at hwg ⊢; omega
          · simp only [FanOut.stepsLeft]; omega
      | finished w a => simp [fanOutStep, hk] at hstep

/-- Every schedule keeps the invariant, and its length is the number of steps it
took off the steps left. -/
theorem fanOutRun_inv (s : session) (buf : List Byte) (clients : List (Nat × Worker))
    (sched : List Sched) (st st1 : FanOut) (hinv : fanOutInv s buf clients st)
    (hrun : fanOutRun s buf st sched = some st1) :
    fanOutInv s buf clients st1 ∧ st1.stepsLeft + sched.length = st.stepsLeft := by
  induction sched generalizing st with
  | nil =>
    simp only [fanOutRun, Option.some.injEq] at hrun
    subst hrun
    exact ⟨hinv, rfl⟩
  | cons x xs ih =>
    cases hx : fanOutStep s buf st x with
    | none => simp [fanOutRun, hx] at hrun
    | some st2 =>
      simp only [fanOutRun, hx] at hrun
      obtain ⟨h1, h2⟩ := fanOutStep_inv s buf clients st st2 x hinv hx
      obtain ⟨h3, h4⟩ := ih st2 h1 hrun
      exact ⟨h3, by simp only [List.length_cons]; omega⟩

/-- Once `Data` has returned, every goroutine has run to its end, on every
schedule. -/
theorem fanOutInv_returned (s : session) (buf : List Byte) (clients : List (Nat × Worker))
    (st : FanOut) (hinv : fanOutInv s buf clients st) (hret : st.pc = Pc.returned) :
    st.tasks = clients.map
      (fun p => Task.finished p.1 (s.forwardTo p.2.newClient (bytesNewReader buf))) ∧
    st.wg = 0 := by
  obtain ⟨begun, hcl, htasks, hwg, hz⟩ := hinv
  have hwg0 := hz hret
  rw [hret] at hcl hwg
  simp only [Pc.rest, Pc.added, List.append_nil, Nat.add_zero] at hcl hwg
  subst hcl
  exact ⟨tasksOf_all_finished s buf _ st.tasks htasks (by omega), hwg0⟩

/-- Before `Data` has returned some goroutine can move: the fan-out never
blocks. -/
theorem fanOutInv_progress (s : session) (buf : List Byte) (clients : List (Nat × Worker))
    (st : FanOut) (hinv : fanOutInv s buf clients st) (hret : st.pc ≠ Pc.returned) :
    ∃ x st1, fanOutStep s buf st x = some st1 := by
  obtain ⟨begun, hcl, htasks, hwg, hz⟩ := hinv
  obtain ⟨pc, wg, tasks⟩ := st
  simp only at hcl htasks hwg hz hret
  cases pc with
  | loop rest =>
    cases rest with
    | nil => exact ⟨.main, _, rfl⟩
    | cons p rest => exact ⟨.main, _, rfl⟩
  | spawn p rest => exact ⟨.main, _, rfl⟩
  | wait =>
    by_cases hw : wg = 0
    · exact ⟨.main, { pc := .returned, wg := wg, tasks := tasks }, by simp [fanOutStep, hw]⟩
    · have hpos : 0 < runningCount tasks := by
        simp only [Pc.added] at hwg; omega
      obtain ⟨k, ⟨w, c, hk⟩ | ⟨w, a, hk⟩⟩ := running_task tasks hpos
      · exact ⟨.task k, FanOut.mk .wait wg
          (tasks.set k (.forwarded w (s.forwardTo c (bytesNewReader buf)))),
          by simp [fanOutStep, hk]⟩
      · exact ⟨.task k, { pc := .wait, wg := wg - 1, tasks := tasks.set k (.finished w a) },
          by simp [fanOutStep, hk, hw]⟩
  | returned => exact absurd rfl hret

/-! ## The claims -/

/-- C1. If no worker of the registry accepts the envelope (the empty registry
included), `Data` returns nil, makes no `Read` call on the body stream, calls
`NewClient` on no worker and starts no delivery attempt. -/
theorem Data_zero_matches (s : session) (r : Reader)
    (h : ∀ w ∈ s.workers, w.accept s.from_ s.opts s.to_ = false) :
    (s.Data r).err = none ∧ (s.Data r).inputReads = [] ∧
      newClientCalls (s.Data r).calls = [] ∧ (s.Data r).attempts = [] := by
  rw [Data_zero s r (accepting_nil s h)]
  exact ⟨rfl, rfl, matchLoop_newClientCalls s s.workers 0, rfl⟩

/-- C1, on a registry of two workers that both reject, with a body stream that
would fail if it were read. -/
theorem Data_zero_matches_witness :
    (∀ w ∈ (exampleSession [acceptNone, acceptNone]).workers,
      w.accept (exampleSession [acceptNone, acceptNone]).from_
        (exampleSession [acceptNone, acceptNone]).opts
        (exampleSession [acceptNone, acceptNone]).to_ = false) ∧
    ((exampleSession [acceptNone, acceptNone]).Data brokenBody).err = none ∧
    ((exampleSession [acceptNone, acceptNone]).Data brokenBody).inputReads = [] ∧
    newClientCalls ((exampleSession [acceptNone, acceptNone]).Data brokenBody).calls = [] ∧
    ((exampleSession [acceptNone, acceptNone]).Data brokenBody).attempts = [] :=
  ⟨by simp [exampleSession, acceptNone],
   Data_zero_matches (exampleSession [acceptNone, acceptNone]) brokenBody
     (by simp [exampleSession, acceptNone])⟩

/-- C2, as stated, fails: with a single accepting worker whose handle fails at
`Quit` and nowhere else, `Quit` is the one failed operation of the attempt and
`Data` still returns nil. -/
theorem Data_single_quit_error_dropped :
    ((exampleSession [acceptAll (some quitFailClient)]).workers.filter
      (fun w => w.accept "a@x" {} ["b@y", "c@z"])).length = 1 ∧
    ((exampleSession [acceptAll (some quitFailClient)]).Data exampleBody).attempts.map
      (fun p => failedOps p.2.trace) = [[Op.quit]] ∧
    ((exampleSession [acceptAll (some quitFailClient)]).Data exampleBody).err = none := by
  decide

theorem failedOps_mem_opsOf (tr : List Step) (o : Op) (h : o ∈ failedOps tr) : o ∈ opsOf tr := by
  induction tr with
  | nil => simp [failedOps] at h
  | cons x xs ih =>
    cases x with
    | read res => simpa [opsOf] using ih (by simpa [failedOps] using h)
    | op o' e =>
      cases e with
      | none => simpa [opsOf] using Or.inr (ih (by simpa [failedOps] using h))
      | some e' =>
        simp only [failedOps, List.mem_cons] at h
        rcases h with h | h
        · simp [opsOf, h]
        · simpa [opsOf] using Or.inr (ih h)

/-- C2, amended. With exactly one accepting worker and a non-nil handle: if an
operation other than `Quit` fails on the handle (`Mail`, a `Rcpt`, `Data`, a
`Write` of the body copy, the writer `Close`), or a `Read` of the body stream
fails during the copy, then `Data` returns a non-nil error; and if `Quit` is the
only operation that fails on the handle, or none fails, and no `Read` of the
body stream fails, then `Data` returns nil: the error of `Quit` is never
surfaced. -/
theorem Data_single_failure_surfaced (s : session) (r : Reader) (w : Worker) (c : Client)
    (hone : s.workers.filter (fun w => w.accept s.from_ s.opts s.to_) = [w])
    (hc : w.newClient = some c) :
    (((∃ p ∈ (s.Data r).attempts, ∃ o ∈ failedOps p.2.trace, o ≠ Op.quit) ∨
        (∃ e, ReadResult.fail e ∈ (s.Data r).inputReads)) →
      (s.Data r).err ≠ none) ∧
    ((∀ p ∈ (s.Data r).attempts, ∀ o ∈ failedOps p.2.trace, o = Op.quit) →
      (∀ e, ReadResult.fail e ∉ (s.Data r).inputReads) →
      (s.Data r).err = none) := by
  obtain ⟨i, hacc⟩ := accepting_single s w hone
  rw [Data_one s r i w hacc, hc, forwardTo_some]
  obtain ⟨hnoquit, hnone, hok, _, _⟩ := deliver_spec s c r
  refine ⟨?_, ?_⟩
  · intro hfail herr
    obtain ⟨hf, hend⟩ := hnone herr
    rcases hfail with ⟨p, hp, o, ho, hne⟩ | ⟨e, he⟩
    · simp only [List.mem_singleton] at hp
      subst hp
      simp only [failedOps_append, hf, List.nil_append] at ho
      cases hq : c.reply (opsOf (s.deliver c r).trace) Op.quit with
      | none => simp [hq, failedOps] at ho
      | some e => simp [hq, failedOps] at ho; exact hne ho
    · obtain ⟨_, _, hreads, _⟩ := hok hf
      simp only [readsOf_append, hreads, readsOf, hend, Reader.last, List.append_nil,
        List.mem_append, List.mem_map, List.mem_singleton] at he
      rcases he with ⟨_, _, h⟩ | h <;> cases h
  · intro hquit hread
    have hf : failedOps (s.deliver c r).trace = [] := by
      apply List.eq_nil_iff_forall_not_mem.mpr
      intro o ho
      have hq := hquit _ (List.mem_singleton.mpr rfl) o (by simp [ho])
      subst hq
      exact hnoquit (failedOps_mem_opsOf _ _ ho)
    obtain ⟨herr, _, hreads, _⟩ := hok hf
    simp only at herr ⊢
    rw [herr]
    cases hend : r.ending with
    | none => rfl
    | some e =>
      exact absurd (by simp [hreads, hend, Reader.last, readsOf]) (hread e)

/-- C2 amended, on a handle that fails at `Data` (opening the body writer), where
`Data` returns an error, and on a handle that fails at `Quit` only, where `Data`
returns nil. -/
theorem Data_single_failure_surfaced_witness :
    ((exampleSession [acceptAll (some dataFailClient)]).Data exampleBody).err ≠ none ∧
    ((exampleSession [acceptAll (some quitFailClient)]).Data exampleBody).attempts.map
      (fun p => failedOps p.2.trace) = [[Op.quit]] ∧
    ((exampleSession [acceptAll (some quitFailClient)]).Data exampleBody).err = none :=
  ⟨(Data_single_failure_surfaced (exampleSession [acceptAll (some dataFailClient)]) exampleBody
      (acceptAll (some dataFailClient)) dataFailClient rfl rfl).1
      (Or.inl ⟨(0, (exampleSession [acceptAll (some dataFailClient)]).forwardTo
        (some dataFailClient) exampleBody), by decide, Op.data, by decide, by decide⟩),
   by decide,
   (Data_single_failure_surfaced (exampleSession [acceptAll (some quitFailClient)]) exampleBody
      (acceptAll (some quitFailClient)) quitFailClient rfl rfl).2 (by decide)
      (fun e he => by
        have hreads : ((exampleSession [acceptAll (some quitFailClient)]).Data
            exampleBody).inputReads =
            [.chunk [104, 105], .chunk [], .chunk [10], .eof] := by decide
        rw [hreads] at he
        simp at he)⟩

/-- C3. With exactly one accepting worker and a non-nil handle: if the body
stream ends without a read error and no operation on the handle fails, then
`Data` made one delivery attempt, the bytes passed to the handle's body writer
are exactly the bytes of the input stream in order, and `Data` returns nil. -/
theorem Data_single_streams_body (s : session) (r : Reader) (w : Worker) (c : Client)
    (hone : s.workers.filter (fun w => w.accept s.from_ s.opts s.to_) = [w])
    (hc : w.newClient = some c)
    (hread : r.ending = none)
    (hops : failedOps (s.forwardTo (some c) r).trace = []) :
    (∃ i, (s.Data r).attempts = [(i, s.forwardTo (some c) r)]) ∧
      writtenBytes (s.forwardTo (some c) r).trace = r.bytes ∧
      (s.Data r).err = none := by
  obtain ⟨i, hacc⟩ := accepting_single s w hone
  rw [Data_one s r i w hacc, hc]
  rw [forwardTo_some] at hops ⊢
  obtain ⟨_, _, hok, _, _⟩ := deliver_spec s c r
  have hf : failedOps (s.deliver c r).trace = [] := by
    simp only [failedOps_append, List.append_eq_nil] at hops
    exact hops.1
  obtain ⟨herr, hbytes, _, _⟩ := hok hf
  refine ⟨⟨i, rfl⟩, ?_, ?_⟩
  · simp [writtenBytes, hbytes]
  · simp [herr, hread]

/-- C3, on the example body sent through a handle that never fails. -/
theorem Data_single_streams_body_witness :
    writtenBytes ((exampleSession [acceptAll (some okClient)]).forwardTo (some okClient)
      exampleBody).trace = [104, 105, 10] ∧
    ((exampleSession [acceptAll (some okClient)]).Data exampleBody).err = none :=
  (Data_single_streams_body (exampleSession [acceptAll (some okClient)]) exampleBody
    (acceptAll (some okClient)) okClient rfl rfl rfl (by decide)).2

/-- C4. With two or more accepting workers, if the body stream ends without a
read error then `Data` returns nil, whatever the handles reply. -/
theorem Data_many_reports_success (s : session) (r : Reader)
    (hmany : 2 ≤ (s.workers.filter (fun w => w.accept s.from_ s.opts s.to_)).length)
    (hread : r.ending = none) :
    (s.Data r).err = none := by
  obtain ⟨c1, c2, more, hacc⟩ := accepting_many s hmany
  rw [Data_many_ok s r c1 c2 more hacc hread]

/-- C4, with two handles on which every operation fails: both attempts return an
error and `Data` returns nil. -/
theorem Data_many_reports_success_witness :
    ((exampleSession [acceptAll (some failingClient), acceptAll (some failingClient)]).Data
      exampleBody).attempts.map (fun p => p.2.err) = [some "refused", some "refused"] ∧
    ((exampleSession [acceptAll (some failingClient), acceptAll (some failingClient)]).Data
      exampleBody).err = none :=
  ⟨by decide,
   Data_many_reports_success
    (exampleSession [acceptAll (some failingClient), acceptAll (some failingClient)])
    exampleBody (by decide) rfl⟩

/-- C5. With two or more accepting workers, if reading the body stream fails with
the error `e`, then `Data` returns `e`, calls `NewClient` on no worker and starts
no delivery attempt (so no operation is performed on any handle). -/
theorem Data_many_read_error (s : session) (r : Reader) (e : Error)
    (hmany : 2 ≤ (s.workers.filter (fun w => w.accept s.from_ s.opts s.to_)).length)
    (hread : r.ending = some e) :
    (s.Data r).err = some e ∧ newClientCalls (s.Data r).calls = [] ∧
      (s.Data r).attempts = [] := by
  obtain ⟨c1, c2, more, hacc⟩ := accepting_many s hmany
  rw [Data_many_fail s r c1 c2 more e hacc hread]
  exact ⟨rfl, matchLoop_newClientCalls s s.workers 0, rfl⟩

/-- C5, on a body stream that breaks after one byte. -/
theorem Data_many_read_error_witness :
    ((exampleSession [acceptAll (some okClient), acceptAll (some okClient)]).Data
      brokenBody).err = some "connection reset" ∧
    newClientCalls ((exampleSession [acceptAll (some okClient), acceptAll (some okClient)]).Data
      brokenBody).calls = [] ∧
    ((exampleSession [acceptAll (some okClient), acceptAll (some okClient)]).Data
      brokenBody).attempts = [] :=
  Data_many_read_error (exampleSession [acceptAll (some okClient), acceptAll (some okClient)])
    brokenBody "connection reset" (by decide) rfl

theorem bytesNewReader_bytes (buf : List Byte) : (bytesNewReader buf).bytes = buf := by
  cases buf <;> simp [bytesNewReader, Reader.bytes]

theorem forwardTo_workers (s : session) (ws : List Worker) (c : Option Client) (r : Reader) :
    ({ s with workers := ws } : session).forwardTo c r = s.forwardTo c r := rfl

/-- C6. With two or more accepting workers and a body stream that ends without a
read error: the accepting worker at registry position `i`, with non-nil handle
`c`, has exactly one attempt; that attempt is the delivery of the whole buffered
body to `c` under the session's envelope, a function of the envelope, of `c` and
of the body bytes alone and so the same whatever the other workers and handles
do; and if no operation of that attempt fails, the bytes passed to its body
writer are exactly the bytes of the input stream. -/
theorem Data_many_each_full_copy (s : session) (r : Reader) (i : Nat) (w : Worker) (c : Client)
    (hmany : 2 ≤ (s.workers.filter (fun w => w.accept s.from_ s.opts s.to_)).length)
    (hread : r.ending = none)
    (hw : s.workers[i]? = some w)
    (hacc : w.accept s.from_ s.opts s.to_ = true)
    (hc : w.newClient = some c) :
    (i, ({ s with workers := [] } : session).forwardTo (some c) (bytesNewReader r.bytes)) ∈
        (s.Data r).attempts ∧
      (∀ a, (i, a) ∈ (s.Data r).attempts →
        a = ({ s with workers := [] } : session).forwardTo (some c) (bytesNewReader r.bytes)) ∧
      (failedOps (({ s with workers := [] } : session).forwardTo (some c)
          (bytesNewReader r.bytes)).trace = [] →
        writtenBytes (({ s with workers := [] } : session).forwardTo (some c)
          (bytesNewReader r.bytes)).trace = r.bytes) := by
  obtain ⟨c1, c2, more, hm⟩ := accepting_many s hmany
  rw [Data_many_ok s r c1 c2 more hm hread, forwardTo_workers]
  have hmem : (i, w) ∈ s.accepting := (mem_accepting s i w).mpr ⟨hw, hacc⟩
  refine ⟨?_, ?_, ?_⟩
  · exact List.mem_map.mpr ⟨(i, w), hmem, by simp [hc]⟩
  · intro a ha
    obtain ⟨p, hp, hpe⟩ := List.mem_map.mp ha
    obtain ⟨j, w'⟩ := p
    simp only [Prod.mk.injEq] at hpe
    obtain ⟨rfl, rfl⟩ := hpe
    have hw' := ((mem_accepting s j w').mp hp).1
    rw [hw] at hw'
    cases hw'
    rw [hc]
  · intro hops
    rw [forwardTo_some] at hops ⊢
    obtain ⟨_, _, hok, _, _⟩ := deliver_spec s c (bytesNewReader r.bytes)
    have hf : failedOps (s.deliver c (bytesNewReader r.bytes)).trace = [] := by
      simp only [failedOps_append, List.append_eq_nil] at hops
      exact hops.1
    obtain ⟨_, hbytes, _, _⟩ := hok hf
    simp [writtenBytes, hbytes, bytesNewReader_bytes]

/-- C6, on a registry whose first worker has a failing handle, whose second
returns a nil handle and whose third has a handle that never fails: the third
receives the three bytes of the body. -/
theorem Data_many_each_full_copy_witness :
    writtenBytes (({ exampleSession [acceptAll (some failingClient), acceptAll none,
        acceptAll (some okClient)] with workers := [] } : session).forwardTo (some okClient)
      (bytesNewReader exampleBody.bytes)).trace = [104, 105, 10] :=
  (Data_many_each_full_copy
    (exampleSession [acceptAll (some failingClient), acceptAll none, acceptAll (some okClient)])
    exampleBody 2 (acceptAll (some okClient)) okClient (by decide) rfl rfl rfl rfl).2.2
    (by decide)

/-- C7. A delivery attempt on a non-nil handle ends with `Quit` and performs no
other `Quit`: the trace of `forwardTo` is some trace without `Quit` followed by
the single `Quit` step, whatever the handle replies.  The same holds for every
attempt `Data` makes, in the single-match and in the multi-match branch, on a
worker whose handle is non-nil. -/
theorem forwardTo_quit_once_last (s : session) (r : Reader) :
    (∀ c : Client, ∃ pre e, (s.forwardTo (some c) r).trace = pre ++ [Step.op Op.quit e] ∧
      Op.quit ∉ opsOf pre) ∧
    (∀ i w c a, s.workers[i]? = some w → w.newClient = some c → (i, a) ∈ (s.Data r).attempts →
      ∃ pre e, a.trace = pre ++ [Step.op Op.quit e] ∧ Op.quit ∉ opsOf pre) := by
  have hfw : ∀ (c : Client) (rd : Reader), ∃ pre e,
      (s.forwardTo (some c) rd).trace = pre ++ [Step.op Op.quit e] ∧ Op.quit ∉ opsOf pre :=
    fun c rd => ⟨(s.deliver c rd).trace, c.reply (opsOf (s.deliver c rd).trace) Op.quit, rfl,
      (deliver_spec s c rd).1⟩
  refine ⟨fun c => hfw c r, ?_⟩
  intro i w c a hw hc ha
  obtain ⟨w', rd, hmem, rfl⟩ := attempts_mem s r i a ha
  have hw' := ((mem_accepting s i w').mp hmem).1
  rw [hw] at hw'
  cases hw'
  rw [hc]
  exact hfw c rd

/-- C7, on two accepting workers, the second with a handle that fails at `Data`:
its attempt is `Mail`, two `Rcpt`, the failed `Data`, then `Quit`. -/
theorem forwardTo_quit_once_last_witness :
    ∃ pre e, ((exampleSession [acceptAll (some okClient),
        acceptAll (some dataFailClient)]).forwardTo (some dataFailClient)
          (bytesNewReader exampleBody.bytes)).trace = pre ++ [Step.op Op.quit e] ∧
      Op.quit ∉ opsOf pre :=
  (forwardTo_quit_once_last
    (exampleSession [acceptAll (some okClient), acceptAll (some dataFailClient)])
    exampleBody).2 1 (acceptAll (some dataFailClient)) dataFailClient
    ((exampleSession [acceptAll (some okClient), acceptAll (some dataFailClient)]).forwardTo
      (some dataFailClient) (bytesNewReader exampleBody.bytes))
    rfl rfl (by decide)

/-- C8. On a nil handle `forwardTo` returns nil with an empty trace: no handle
operation and no `Read` on the reader it was given.  When the only accepting
worker returns a nil handle, `Data` returns nil, makes no `Read` call on the
input stream, and its one attempt performed nothing. -/
theorem forwardTo_nil_handle (s : session) (r : Reader) :
    s.forwardTo none r = { err := none, trace := [] } ∧
    (∀ w, s.workers.filter (fun w => w.accept s.from_ s.opts s.to_) = [w] →
      w.newClient = none →
      (s.Data r).err = none ∧ (s.Data r).inputReads = [] ∧
        (s.Data r).attempts.map (fun p => p.2) = [{ err := none, trace := [] }]) := by
  refine ⟨rfl, ?_⟩
  intro w hone hc
  obtain ⟨i, hacc⟩ := accepting_single s w hone
  rw [Data_one s r i w hacc, hc]
  exact ⟨rfl, rfl, rfl⟩

/-- C8, on a single accepting worker with a nil handle and a body stream that
would fail if it were read. -/
theorem forwardTo_nil_handle_witness :
    ((exampleSession [acceptNone, acceptAll none]).Data brokenBody).err = none ∧
    ((exampleSession [acceptNone, acceptAll none]).Data brokenBody).inputReads = [] ∧
    ((exampleSession [acceptNone, acceptAll none]).Data brokenBody).attempts.map (fun p => p.2) =
      [{ err := none, trace := [] }] :=
  (forwardTo_nil_handle (exampleSession [acceptNone, acceptAll none]) brokenBody).2
    (acceptAll none) rfl rfl

/-- C9, as stated, fails: after `Mail`, `Rcpt old@y` and a completed `Data`, a new
`Mail` with no `Reset` leaves `old@y` in the recipient list, and after one more
`Rcpt` the next `Data` passes both recipients to `Accept` and to the handle. -/
theorem Mail_keeps_recipients :
    ((idleSession [acceptAll (some okClient)]).run
      [Cmd.Mail "a@x" {}, Cmd.Rcpt "old@y", Cmd.Data exampleBody, Cmd.Mail "b@x" {}]).1.to_ =
      ["old@y"] ∧
    acceptArgs ((((idleSession [acceptAll (some okClient)]).run
      [Cmd.Mail "a@x" {}, Cmd.Rcpt "old@y", Cmd.Data exampleBody, Cmd.Mail "b@x" {},
        Cmd.Rcpt "new@z"]).1.Data exampleBody).calls) = [("b@x", {}, ["old@y", "new@z"])] ∧
    ((((idleSession [acceptAll (some okClient)]).run
      [Cmd.Mail "a@x" {}, Cmd.Rcpt "old@y", Cmd.Data exampleBody, Cmd.Mail "b@x" {},
        Cmd.Rcpt "new@z"]).1.Data exampleBody).attempts.map
      (fun p => rcptArgs (opsOf p.2.trace))) = [["old@y", "new@z"]] := by
  decide

/-- C9, amended. `Data` leaves the envelope in place and a following `Mail(f, o)`
with no `Reset` replaces sender and options only: after `Data`, `Mail(f, o)` and
`Rcpt` of `rs` the session holds `f`, `o` and the recipients it held when `Data`
was called followed by `rs`, and the next `Data` presents exactly that envelope to
`Accept` and to the handles.  In particular only `rs` is presented when the
session held no recipient at the time of the first `Data`. -/
theorem Data_then_Mail_envelope (s : session) (r : Reader) (f : String) (o : MailOptions)
    (rs : List String) :
    (s.run (Cmd.Data r :: Cmd.Mail f o :: rs.map Cmd.Rcpt)).1 =
      { s with from_ := f, opts := o, to_ := s.to_ ++ rs } ∧
    (s.run [Cmd.Data r, Cmd.Mail f o]).1 = { s with from_ := f, opts := o } ∧
    (∀ r2, ((s.run (Cmd.Data r :: Cmd.Mail f o :: rs.map Cmd.Rcpt)).1.Data r2).presents
      f o (s.to_ ++ rs)) := by
  have hrun : (s.run (Cmd.Data r :: Cmd.Mail f o :: rs.map Cmd.Rcpt)).1 =
      { s with from_ := f, opts := o, to_ := s.to_ ++ rs } := by
    simp only [session.run, session.step, session.Mail, run_rcpts]
  refine ⟨hrun, rfl, ?_⟩
  intro r2
  rw [hrun]
  exact Data_presents { s with from_ := f, opts := o, to_ := s.to_ ++ rs } r2

/-- C10. From any session state, `Reset`, `Mail(f, o)`, `Rcpt(r1)`, ..., `Rcpt(rn)`
leave the envelope `(f, o, [r1, ..., rn])` over the unchanged registry and no call
returns an error; the session created by `AnonymousLogin` over the same registry
reaches the same state by `Mail(f, o)`, `Rcpt(r1)`, ..., `Rcpt(rn)`; so `Data`
gives the same result on both and presents `(f, o, [r1, ..., rn])` to `Accept`
and to the handles. -/
theorem Reset_then_fresh_envelope (s : session) (st : ConnectionState) (f : String)
    (o : MailOptions) (rs : List String) :
    (s.run (Cmd.Reset :: Cmd.Mail f o :: rs.map Cmd.Rcpt)).1 =
      { workers := s.workers, from_ := f, opts := o, to_ := rs } ∧
    (∀ e ∈ (s.run (Cmd.Reset :: Cmd.Mail f o :: rs.map Cmd.Rcpt)).2, e = none) ∧
    (∃ fresh, (Backend.AnonymousLogin { Workers := s.workers } st).1 = some fresh ∧
      (fresh.run (Cmd.Mail f o :: rs.map Cmd.Rcpt)).1 =
        (s.run (Cmd.Reset :: Cmd.Mail f o :: rs.map Cmd.Rcpt)).1 ∧
      (∀ e ∈ (fresh.run (Cmd.Mail f o :: rs.map Cmd.Rcpt)).2, e = none) ∧
      ∀ r, (fresh.run (Cmd.Mail f o :: rs.map Cmd.Rcpt)).1.Data r =
        (s.run (Cmd.Reset :: Cmd.Mail f o :: rs.map Cmd.Rcpt)).1.Data r) ∧
    (∀ r, ((s.run (Cmd.Reset :: Cmd.Mail f o :: rs.map Cmd.Rcpt)).1.Data r).presents f o rs) := by
  have hrun : s.run (Cmd.Reset :: Cmd.Mail f o :: rs.map Cmd.Rcpt) =
      ({ workers := s.workers, from_ := f, opts := o, to_ := rs },
        none :: none :: List.replicate rs.length none) := by
    simp only [session.run, session.step, session.Mail, session.Reset, run_rcpts,
      List.nil_append]
  have hfresh : ({ workers := s.workers, from_ := "", opts := {}, to_ := [] } : session).run
      (Cmd.Mail f o :: rs.map Cmd.Rcpt) =
      ({ workers := s.workers, from_ := f, opts := o, to_ := rs },
        none :: List.replicate rs.length none) := by
    simp only [session.run, session.step, session.Mail, run_rcpts, List.nil_append]
  refine ⟨by rw [hrun], ?_, ⟨_, rfl, ?_, ?_, ?_⟩, ?_⟩
  · intro e he
    rw [hrun] at he
    simp only [List.mem_cons] at he
    rcases he with rfl | rfl | he
    · rfl
    · rfl
    · exact List.eq_of_mem_replicate he
  · rw [hrun, hfresh]
  · intro e he
    rw [hfresh] at he
    simp only [List.mem_cons] at he
    rcases he with rfl | he
    · rfl
    · exact List.eq_of_mem_replicate he
  · intro r
    rw [hrun, hfresh]
  · intro r
    rw [hrun]
    exact Data_presents { workers := s.workers, from_ := f, opts := o, to_ := rs } r

theorem newClientCalls_map_fst (l : List (Nat × Worker)) :
    newClientCalls (l.map (fun p => Call.newClient p.1)) = l.map Prod.fst := by
  induction l with
  | nil => rfl
  | cons x xs ih => simp [newClientCalls, ih]

/-- C11. The calls `Data` makes on the registry are one `Accept` per worker, in
registry order, each with the session's sender, options and recipients, followed
by the `NewClient` calls.  When delivery is reached (exactly one worker accepts,
or several accept and the body is read without error) the `NewClient` calls are
on the positions of the accepting workers, in registry order; that list is
strictly increasing (each accepting worker once) and holds exactly the positions
whose worker accepts.  In every case `NewClient` is called on no other
position. -/
theorem Data_accept_then_newClient (s : session) (r : Reader) :
    (s.Data r).calls =
      s.workers.enum.map
        (fun p => Call.accept p.1 s.from_ s.opts s.to_ (p.2.accept s.from_ s.opts s.to_)) ++
      (newClientCalls (s.Data r).calls).map Call.newClient ∧
    (((s.workers.filter (fun w => w.accept s.from_ s.opts s.to_)).length = 1 ∨
      (2 ≤ (s.workers.filter (fun w => w.accept s.from_ s.opts s.to_)).length ∧
        r.ending = none)) →
      newClientCalls (s.Data r).calls =
        (s.workers.enum.filter (fun p => p.2.accept s.from_ s.opts s.to_)).map Prod.fst) ∧
    (newClientCalls (s.Data r).calls = [] ∨
      newClientCalls (s.Data r).calls =
        (s.workers.enum.filter (fun p => p.2.accept s.from_ s.opts s.to_)).map Prod.fst) ∧
    ((s.workers.enum.filter (fun p => p.2.accept s.from_ s.opts s.to_)).map Prod.fst).Pairwise
      (fun a b => a < b) ∧
    (∀ i, i ∈ (s.workers.enum.filter (fun p => p.2.accept s.from_ s.opts s.to_)).map Prod.fst ↔
      ∃ w, s.workers[i]? = some w ∧ w.accept s.from_ s.opts s.to_ = true) := by
  have hcalls : (matchLoop s 0 s.workers).2 = s.workers.enum.map
      (fun p => Call.accept p.1 s.from_ s.opts s.to_ (p.2.accept s.from_ s.opts s.to_)) := by
    rw [matchLoop_enum]; rfl
  have hlen := accepting_length s
  have hinc := accepting_fst_increasing s
  have hmem : ∀ i, i ∈ s.accepting.map Prod.fst ↔
      ∃ w, s.workers[i]? = some w ∧ w.accept s.from_ s.opts s.to_ = true := by
    intro i
    constructor
    · intro hi
      obtain ⟨p, hp, rfl⟩ := List.mem_map.mp hi
      exact ⟨p.2, (mem_accepting s p.1 p.2).mp hp⟩
    · rintro ⟨w, hw⟩
      exact List.mem_map.mpr ⟨(i, w), (mem_accepting s i w).mpr hw, rfl⟩
  rw [← accepting_enum, ← hlen]
  refine ⟨?_, ?_, ?_, hinc, hmem⟩
  · rw [Data_eq]
    split
    · simp [hcalls, newClientCalls_map_accept, newClientCalls]
    · simp [hcalls, newClientCalls_append, newClientCalls_map_accept, newClientCalls]
    · split
      · simp [hcalls, newClientCalls_map_accept, newClientCalls]
      · rename_i c1 c2 more hacc _ _
        have hn : newClientCalls (List.map (fun p => Call.newClient p.1) (c1 :: c2 :: more)) =
            (c1 :: c2 :: more).map Prod.fst := by
          have := newClientCalls_map_newClient ((c1 :: c2 :: more).map Prod.fst)
          simpa [List.map_map] using this
        simp only [hcalls, newClientCalls_append, newClientCalls_map_accept, hn, List.nil_append,
          List.map_map]
        rfl
  · intro hreach
    rcases hreach with h1 | ⟨h2, hr⟩
    · match hacc : s.accepting, h1 with
      | [(i, w)], _ =>
        rw [Data_one s r i w hacc]
        simp [hcalls, newClientCalls_append, newClientCalls_map_accept, newClientCalls]
    · match hacc : s.accepting, h2 with
      | c1 :: c2 :: more, _ =>
        rw [Data_many_ok s r c1 c2 more hacc hr, hacc]
        have := newClientCalls_map_newClient ((c1 :: c2 :: more).map Prod.fst)
        simp only [hcalls, newClientCalls_append, newClientCalls_map_accept, List.nil_append]
        simpa [List.map_map] using this
  · rw [Data_eq]
    split
    · left; simp [hcalls, newClientCalls_map_accept]
    · rename_i i w hacc
      right
      simp [hcalls, hacc, newClientCalls_append, newClientCalls_map_accept, newClientCalls]
    · rename_i c1 c2 more hacc
      split
      · left; simp [hcalls, newClientCalls_map_accept]
      · right
        rw [hacc, hcalls, newClientCalls_append, newClientCalls_map_accept,
          newClientCalls_map_fst, List.nil_append]

/-- C12. On a non-nil handle on which no operation fails, the operations of a
delivery attempt are exactly `Mail(sender, options)`, one `Rcpt` per recipient in
the order of the session's list (none for an empty list), `Data`, one `Write`
per non-empty slice read from the body, `Close`, `Quit`; and `Rcpt` calls on the
session append to that list in call order. -/
theorem forwardTo_operation_sequence (s : session) (c : Client) (r : Reader)
    (hops : failedOps (s.forwardTo (some c) r).trace = []) :
    opsOf (s.forwardTo (some c) r).trace =
      Op.mail s.from_ s.opts :: s.to_.map Op.rcpt ++ Op.data :: writeOps r.chunks ++
        [Op.close, Op.quit] ∧
    ∀ rs, (s.run (rs.map Cmd.Rcpt)).1.to_ = s.to_ ++ rs := by
  refine ⟨?_, fun rs => by rw [run_rcpts]⟩
  rw [forwardTo_some] at hops ⊢
  rcases deliver_cases s c r with ⟨e, h⟩ | ⟨j, t, e, _, h⟩ | ⟨e, h⟩ | ⟨j, ch, e, ec, _, _, h⟩ |
    ⟨e, ec, _, h⟩ | ⟨ec, _, h⟩
  · rw [h] at hops; simp [failedOps] at hops
  · rw [h] at hops; simp [failedOps] at hops
  · rw [h] at hops; simp [failedOps] at hops
  · rw [h] at hops; simp [failedOps] at hops
  · rw [h] at hops ⊢; simp [opsOf]
  · rw [h] at hops ⊢; simp [opsOf]

/-- C12, on the example session (two recipients) and the example body (two
non-empty slices). -/
theorem forwardTo_operation_sequence_witness :
    opsOf ((exampleSession []).forwardTo (some okClient) exampleBody).trace =
      [Op.mail "a@x" {}, Op.rcpt "b@y", Op.rcpt "c@z", Op.data, Op.write [104, 105],
        Op.write [10], Op.close, Op.quit] :=
  (forwardTo_operation_sequence (exampleSession []) okClient exampleBody (by decide)).1

/-- C13. The multi-match branch after the body is buffered, as `Data` and its
goroutines taking steps in any order (`wg.Add(1)`, `go`, `wg.Wait()`; per
goroutine `forwardTo`, then `wg.Done()`).  On every schedule: if `Data` has
returned, every goroutine has finished, the attempts they hold are exactly the
attempts of `Data`, one per accepting worker in registry order, the counter is
zero, and the attempt of every accepting worker with a non-nil handle ends with
`Quit`.  If `Data` has not returned, some goroutine can move, and the steps
taken plus the steps left are `4 * n + 2` for `n` accepting workers, so every
schedule that cannot be extended has `Data` returned. -/
theorem Data_returns_after_attempts (s : session) (r : Reader) (sched : List Sched)
    (st : FanOut)
    (hmany : 2 ≤ (s.workers.filter (fun w => w.accept s.from_ s.opts s.to_)).length)
    (hread : r.ending = none)
    (hrun : fanOutRun s r.bytes (fanOutInit s.accepting) sched = some st) :
    (st.pc = Pc.returned →
      st.tasks = (s.Data r).attempts.map (fun q => Task.finished q.1 q.2) ∧ st.wg = 0 ∧
      ∀ i w c, s.workers[i]? = some w → w.accept s.from_ s.opts s.to_ = true →
        w.newClient = some c →
        ∃ a pre e, Task.finished i a ∈ st.tasks ∧ a.trace = pre ++ [Step.op Op.quit e]) ∧
    (st.pc ≠ Pc.returned → ∃ x st1, fanOutStep s r.bytes st x = some st1) ∧
    st.stepsLeft + sched.length = 4 * s.accepting.length + 2 := by
  obtain ⟨hinv, hlen⟩ :=
    fanOutRun_inv s r.bytes s.accepting sched _ st (fanOutInv_init s r.bytes s.accepting) hrun
  refine ⟨?_, fanOutInv_progress s r.bytes s.accepting st hinv, ?_⟩
  · intro hret
    obtain ⟨htasks, hwg⟩ := fanOutInv_returned s r.bytes s.accepting st hinv hret
    obtain ⟨c1, c2, more, hacc⟩ := accepting_many s hmany
    refine ⟨?_, hwg, ?_⟩
    · rw [htasks, Data_many_ok s r c1 c2 more hacc hread, List.map_map]
      rfl
    · intro i w c hw hwacc hc
      refine ⟨s.forwardTo (some c) (bytesNewReader r.bytes), _, _, ?_, rfl⟩
      rw [htasks]
      exact List.mem_map.mpr ⟨(i, w), (mem_accepting s i w).mpr ⟨hw, hwacc⟩, by simp [hc]⟩
  · rw [hlen]
    simp [fanOutInit, FanOut.stepsLeft, tasksLeft]

/-- C13, on two accepting workers and a schedule that lets the first goroutine
run `forwardTo` before the second is started and leaves both `wg.Done()` calls
to the end. -/
theorem Data_returns_after_attempts_witness :
    ∃ st, fanOutRun (exampleSession [acceptAll (some okClient), acceptAll (some dataFailClient)])
        exampleBody.bytes
        (fanOutInit
          (exampleSession [acceptAll (some okClient), acceptAll (some dataFailClient)]).accepting)
        [.main, .main, .task 0, .main, .main, .main, .task 1, .task 0, .task 1, .main] =
          some st ∧
      st.pc = Pc.returned ∧
      st.tasks = ((exampleSession [acceptAll (some okClient),
        acceptAll (some dataFailClient)]).Data exampleBody).attempts.map
          (fun q => Task.finished q.1 q.2) :=
  ⟨_, rfl, rfl,
    ((Data_returns_after_attempts
      (exampleSession [acceptAll (some okClient), acceptAll (some dataFailClient)]) exampleBody
      [.main, .main, .task 0, .main, .main, .main, .task 1, .task 0, .task 1, .main] _
      (by decide) rfl rfl).1 rfl).1⟩

theorem optsAfter_fold_id (s : session) (buf : List Byte) (l : List (Nat × Worker))
    (o : MailOptions)
    (h : ∀ p ∈ l, ∀ c, p.2.newClient = some c → ∀ done o, c.leaves done o = o) :
    l.foldl (fun o p => s.optsAfter p.2.newClient (bytesNewReader buf) o) o = o := by
  induction l generalizing o with
  | nil => rfl
  | cons p ps ih =>
    have hp : s.optsAfter p.2.newClient (bytesNewReader buf) o = o := by
      cases hc : p.2.newClient with
      | none => rfl
      | some c => exact h p (by simp) c hc _ o
    rw [List.foldl_cons, hp]
    exact ih o (fun q hq => h q (by simp [hq]))

/-- When no handle of an accepting worker writes through the pointer, the
options are the same after `Data`. -/
theorem optsAfterData_id (s : session) (r : Reader)
    (h : ∀ p ∈ s.accepting, ∀ c, p.2.newClient = some c → ∀ done o, c.leaves done o = o) :
    s.optsAfterData r = s.opts := by
  unfold session.optsAfterData
  unfold session.accepting at h
  split
  · rfl
  · rename_i i w hacc
    cases hc : w.newClient with
    | none => rfl
    | some c => exact h (i, w) (by rw [hacc]; simp) c hc _ s.opts
  · rename_i c1 c2 more hacc
    split
    · rfl
    · exact optsAfter_fold_id s r.bytes _ s.opts (by rw [← hacc]; exact h)


/-- C14, as stated, fails: with a single accepting worker whose handle writes the
size `99` through the options pointer it receives in `Mail`, `Data` returns nil
and the session's options have changed from size `0` to size `99`. -/
theorem Data_handle_rewrites_options :
    (exampleSession [acceptAll (some sizeWriterClient)]).opts.size = 0 ∧
    ((exampleSession [acceptAll (some sizeWriterClient)]).Data exampleBody).err = none ∧
    ((exampleSession [acceptAll (some sizeWriterClient)]).step
      (Cmd.Data exampleBody)).1.opts.size = 99 ∧
    ((exampleSession [acceptAll (some sizeWriterClient)]).step (Cmd.Data exampleBody)).1.opts ≠
      (exampleSession [acceptAll (some sizeWriterClient)]).opts := by
  decide

/-- C14, amended. `Data` and `forwardTo` assign no field of the session: after
`Data` the registry, the sender and the recipient list are those held before,
whatever the body stream, the number of matches and the result, and the error
handed back is the one `Data` computed.  The options are those held before as
well when no handle of an accepting worker writes through the pointer its
`Mail` receives (then any sequence of `Data` calls leaves the session as it
was), and when `Data` made no delivery attempt.  With exactly one accepting
worker and a non-nil handle, the options after `Data` are what that handle left
in the record. -/
theorem Data_leaves_session (s : session) (r : Reader) :
    (s.step (Cmd.Data r)).1.workers = s.workers ∧
    (s.step (Cmd.Data r)).1.from_ = s.from_ ∧
    (s.step (Cmd.Data r)).1.to_ = s.to_ ∧
    (s.step (Cmd.Data r)).2 = (s.Data r).err ∧
    ((∀ (i : Nat) (w : Worker) (c : Client), s.workers[i]? = some w →
        w.accept s.from_ s.opts s.to_ = true →
        w.newClient = some c → ∀ done o, c.leaves done o = o) →
      (s.step (Cmd.Data r)).1 = s ∧ ∀ rs : List Reader, (s.run (rs.map Cmd.Data)).1 = s) ∧
    ((s.Data r).attempts = [] → (s.step (Cmd.Data r)).1 = s) ∧
    (∀ w c, s.workers.filter (fun w => w.accept s.from_ s.opts s.to_) = [w] →
      w.newClient = some c →
      (s.step (Cmd.Data r)).1.opts = c.leaves (opsOf (s.forwardTo (some c) r).trace) s.opts) := by
  refine ⟨rfl, rfl, rfl, rfl, ?_, ?_, ?_⟩
  · intro hread
    have hid : ∀ r', ({ s with opts := s.optsAfterData r' } : session) = s := by
      intro r'
      rw [optsAfterData_id s r' (fun p hp c hc =>
        hread p.1 p.2 c ((mem_accepting s p.1 p.2).mp hp).1 ((mem_accepting s p.1 p.2).mp hp).2 hc)]
    refine ⟨hid r, ?_⟩
    intro rs
    induction rs with
    | nil => rfl
    | cons x xs ih =>
      simp only [List.map_cons, session.run, session.step]
      rw [hid x]
      exact ih
  · intro hnone
    show ({ s with opts := s.optsAfterData r } : session) = s
    have : s.optsAfterData r = s.opts := by
      rw [Data_eq] at hnone
      unfold session.optsAfterData
      unfold session.accepting at hnone
      split
      · rfl
      · rename_i i w hacc
        rw [hacc] at hnone
        simp at hnone
      · rename_i c1 c2 more hacc
        rw [hacc] at hnone
        split
        · rfl
        · rename_i hend
          simp [hend] at hnone
    rw [this]
  · intro w c hone hc
    obtain ⟨i, hacc⟩ := accepting_single s w hone
    show s.optsAfterData r = _
    unfold session.optsAfterData
    unfold session.accepting at hacc
    rw [hacc]
    simp only [session.optsAfter, hc]

/-- C14 amended, on a single accepting worker whose handle only reads the
options: the session after `Data` is the session before. -/
theorem Data_leaves_session_witness :
    ((exampleSession [acceptAll (some okClient)]).step (Cmd.Data exampleBody)).1 =
      exampleSession [acceptAll (some okClient)] :=
  ((Data_leaves_session (exampleSession [acceptAll (some okClient)]) exampleBody).2.2.2.2.1
    (fun i w c hw _ hc done o => by
      match i, hw with
      | 0, hw =>
        simp only [exampleSession, List.getElem?_cons_zero, Option.some.injEq] at hw
        subst hw
        simp only [acceptAll, Option.some.injEq] at hc
        subst hc
        rfl)).1

/-- C15. `Login` returns no session and the error `ErrAuthUnsupported`, whatever
the connection state, user name and password.  `AnonymousLogin` returns no error
and a session whose registry is the backend's `Workers`, in the same order, with
sender `""`, zero-valued options and no recipients. -/
theorem Backend_logins (be : Backend) (st : ConnectionState) (username password : String) :
    be.Login st username password = (none, some ErrAuthUnsupported) ∧
    ∃ s, be.AnonymousLogin st = (some s, none) ∧ s.workers = be.Workers ∧ s.from_ = "" ∧
      s.opts = {} ∧ s.to_ = [] :=
  ⟨rfl, _, rfl, rfl, rfl, rfl, rfl⟩

/-- The body of `forwardTo` returns the error of its first failing step; after a
failing step nothing follows but the `Close` after a failed `Write` or `Read`;
its operations are an initial segment of the full sequence, possibly followed by
`Close`. -/
theorem deliver_halts (s : session) (c : Client) (r : Reader) :
    (s.deliver c r).err = firstError (s.deliver c r).trace ∧
      (∀ pre st post, (s.deliver c r).trace = pre ++ st :: post → st.failure ≠ none →
        post = [] ∨
        (((∃ bs e, st = Step.op (Op.write bs) (some e)) ∨ (∃ e, st = Step.read (.fail e))) ∧
          ∃ ec, post = [Step.op Op.close ec])) ∧
      (∃ p, p <+: (Op.mail s.from_ s.opts :: s.to_.map Op.rcpt ++ Op.data :: writeOps r.chunks) ∧
        (opsOf (s.deliver c r).trace = p ∨ opsOf (s.deliver c r).trace = p ++ [Op.close])) := by
  rcases deliver_cases s c r with ⟨e, h⟩ | ⟨j, t, e, hj, h⟩ | ⟨e, h⟩ | ⟨j, ch, e, ec, hj, hne, h⟩ |
    ⟨e, ec, hend, h⟩ | ⟨ec, hend, h⟩
  · rw [h]
    refine ⟨rfl, ?_, ⟨[Op.mail s.from_ s.opts], by simp, Or.inl rfl⟩⟩
    intro pre st post hd hst
    exact Or.inl (halt_one [] _ (by simp) pre post st hd hst).2
  · rw [h]
    refine ⟨?_, ?_, ⟨Op.mail s.from_ s.opts :: (s.to_.take (j + 1)).map Op.rcpt, ?_, Or.inl ?_⟩⟩
    · rw [firstError_clean_append _ _ (clean_head s _)]; rfl
    · intro pre st post hd hst
      exact Or.inl (halt_one _ _ (clean_head s _) pre post st hd hst).2
    · rw [List.cons_append]
      exact (List.prefix_cons_inj _).mpr
        (((List.take_prefix (j + 1) s.to_).map Op.rcpt).trans (List.prefix_append _ _))
    · rw [← take_succ_of_getElem? s.to_ j t hj]
      simp [opsOf]
  · rw [h]
    refine ⟨?_, ?_, ⟨Op.mail s.from_ s.opts :: s.to_.map Op.rcpt ++ [Op.data], ?_, Or.inl ?_⟩⟩
    · rw [firstError_clean_append _ _ (clean_head s _)]; rfl
    · intro pre st post hd hst
      exact Or.inl (halt_one _ _ (clean_head s _) pre post st hd hst).2
    · simp
    · simp [opsOf]
  · rw [h]
    have hclean : ∀ x ∈ [Step.op (.mail s.from_ s.opts) none] ++ rcptSteps s.to_ ++
        [Step.op .data none] ++ copySteps (r.chunks.take j) ++ [Step.read (.chunk ch)],
        x.failure = none := by
      intro x hx
      rcases List.mem_append.mp hx with hx | hx
      · exact clean_opened s _ x hx
      · simp only [List.mem_singleton] at hx; subst hx; rfl
    have hsplit : [Step.op (.mail s.from_ s.opts) none] ++ rcptSteps s.to_ ++
        [Step.op .data none] ++ copySteps (r.chunks.take j) ++
        [Step.read (.chunk ch), Step.op (.write ch) (some e), Step.op .close ec] =
        ([Step.op (.mail s.from_ s.opts) none] ++ rcptSteps s.to_ ++
        [Step.op .data none] ++ copySteps (r.chunks.take j) ++ [Step.read (.chunk ch)]) ++
        [Step.op (.write ch) (some e), Step.op .close ec] := by simp
    rw [hsplit]
    refine ⟨?_, ?_, ⟨Op.mail s.from_ s.opts :: s.to_.map Op.rcpt ++
      Op.data :: writeOps (r.chunks.take (j + 1)), ?_, Or.inr ?_⟩⟩
    · rw [firstError_clean_append _ _ hclean]; rfl
    · intro pre st post hd hst
      rcases halt_two _ _ _ hclean pre post st hd hst with ⟨h1, h2⟩ | ⟨_, h2⟩
      · exact Or.inr ⟨Or.inl ⟨ch, e, h1⟩, ec, h2⟩
      · exact Or.inl h2
    · rw [List.cons_append]
      refine (List.prefix_cons_inj _).mpr ((List.prefix_append_right_inj _).mpr ?_)
      exact (List.prefix_cons_inj _).mpr (writeOps_take_initial _ _)
    · rw [← writeOps_take_succ r.chunks j ch hj hne]
      simp [opsOf]
  · rw [h]
    refine ⟨?_, ?_, ⟨Op.mail s.from_ s.opts :: s.to_.map Op.rcpt ++
      Op.data :: writeOps r.chunks, List.prefix_refl _, Or.inr ?_⟩⟩
    · rw [firstError_clean_append _ _ (clean_opened s _)]; rfl
    · intro pre st post hd hst
      rcases halt_two _ _ _ (clean_opened s _) pre post st hd hst with ⟨h1, h2⟩ | ⟨_, h2⟩
      · exact Or.inr ⟨Or.inr ⟨e, h1⟩, ec, h2⟩
      · exact Or.inl h2
    · simp [opsOf]
  · rw [h]
    have hclean : ∀ x ∈ [Step.op (.mail s.from_ s.opts) none] ++ rcptSteps s.to_ ++
        [Step.op .data none] ++ copySteps r.chunks ++ [Step.read .eof], x.failure = none := by
      intro x hx
      rcases List.mem_append.mp hx with hx | hx
      · exact clean_opened s _ x hx
      · simp only [List.mem_singleton] at hx; subst hx; rfl
    have hsplit : [Step.op (.mail s.from_ s.opts) none] ++ rcptSteps s.to_ ++
        [Step.op .data none] ++ copySteps r.chunks ++ [Step.read .eof, Step.op .close ec] =
        ([Step.op (.mail s.from_ s.opts) none] ++ rcptSteps s.to_ ++
        [Step.op .data none] ++ copySteps r.chunks ++ [Step.read .eof]) ++
        [Step.op .close ec] := by simp
    rw [hsplit]
    refine ⟨?_, ?_, ⟨Op.mail s.from_ s.opts :: s.to_.map Op.rcpt ++
      Op.data :: writeOps r.chunks, List.prefix_refl _, Or.inr ?_⟩⟩
    · rw [firstError_clean_append _ _ hclean]
      cases ec <;> rfl
    · intro pre st post hd hst
      exact Or.inl (halt_one _ _ hclean pre post st hd hst).2
    · simp [opsOf]

/-- C16. The trace of `forwardTo` on a non-nil handle is a body followed by the
deferred `Quit`.  Every result recorded in the trace is the reply of the handle
to that operation after the operations before it.  The body is one of six runs:
`Mail` fails; `Mail` and the first `j` `Rcpt` succeed and the next `Rcpt` fails;
`Mail` and every `Rcpt` succeed and `Data` fails; the writer is opened, the
first `j` slices are copied and the `Write` of the next one fails, then `Close`;
the writer is opened, every slice is copied and the last `Read` fails, then
`Close`; the writer is opened, every slice is copied, the stream ends, then
`Close`.  `forwardTo` returns the error of the first failing step of the body (a
failed handle operation or a failed `Read` of the source), nil when no step
fails.  After a failing step nothing more is performed, except that a failed
`Write` or `Read` of the copy is followed by the `Close` of the writer.  The
operations of the body are an initial segment of `Mail`, `Rcpt(r1)`, ...,
`Rcpt(rn)`, `Data`, the `Write` calls of the copy, possibly followed by
`Close`. -/
theorem forwardTo_first_error (s : session) (c : Client) (r : Reader) :
    ∃ body eq, (s.forwardTo (some c) r).trace = body ++ [Step.op Op.quit eq] ∧
      (s.forwardTo (some c) r).err = firstError body ∧
      (∀ pre o e post, (s.forwardTo (some c) r).trace = pre ++ Step.op o e :: post →
        e = c.reply (opsOf pre) o) ∧
      ((∃ e, body = [Step.op (.mail s.from_ s.opts) (some e)]) ∨
       (∃ j t e, s.to_[j]? = some t ∧
          body = [Step.op (.mail s.from_ s.opts) none] ++ rcptSteps (s.to_.take j) ++
            [Step.op (.rcpt t) (some e)]) ∨
       (∃ e, body = [Step.op (.mail s.from_ s.opts) none] ++ rcptSteps s.to_ ++
            [Step.op .data (some e)]) ∨
       (∃ j ch e ec, r.chunks[j]? = some ch ∧ ch.isEmpty = false ∧
          body = [Step.op (.mail s.from_ s.opts) none] ++ rcptSteps s.to_ ++
            [Step.op .data none] ++ copySteps (r.chunks.take j) ++
            [Step.read (.chunk ch), Step.op (.write ch) (some e), Step.op .close ec]) ∨
       (∃ e ec, r.ending = some e ∧
          body = [Step.op (.mail s.from_ s.opts) none] ++ rcptSteps s.to_ ++
            [Step.op .data none] ++ copySteps r.chunks ++
            [Step.read (.fail e), Step.op .close ec]) ∨
       (∃ ec, r.ending = none ∧
          body = [Step.op (.mail s.from_ s.opts) none] ++ rcptSteps s.to_ ++
            [Step.op .data none] ++ copySteps r.chunks ++
            [Step.read .eof, Step.op .close ec])) ∧
      (∀ pre st post, body = pre ++ st :: post → st.failure ≠ none →
        post = [] ∨
        (((∃ bs e, st = Step.op (Op.write bs) (some e)) ∨ (∃ e, st = Step.read (.fail e))) ∧
          ∃ ec, post = [Step.op Op.close ec])) ∧
      (∃ p, p <+: (Op.mail s.from_ s.opts :: s.to_.map Op.rcpt ++ Op.data :: writeOps r.chunks) ∧
        (opsOf body = p ∨ opsOf body = p ++ [Op.close])) := by
  obtain ⟨herr, hhalt, hops⟩ := deliver_halts s c r
  refine ⟨(s.deliver c r).trace, c.reply (opsOf (s.deliver c r).trace) Op.quit, rfl, herr,
    recorded_forwardTo s c r, ?_, hhalt, hops⟩
  rcases deliver_cases s c r with ⟨e, h⟩ | ⟨j, t, e, hj, h⟩ | ⟨e, h⟩ | ⟨j, ch, e, ec, hj, hne, h⟩ |
    ⟨e, ec, hend, h⟩ | ⟨ec, hend, h⟩
  · exact Or.inl ⟨e, by rw [h]⟩
  · exact Or.inr (Or.inl ⟨j, t, e, hj, by rw [h]⟩)
  · exact Or.inr (Or.inr (Or.inl ⟨e, by rw [h]⟩))
  · exact Or.inr (Or.inr (Or.inr (Or.inl ⟨j, ch, e, ec, hj, hne, by rw [h]⟩)))
  · exact Or.inr (Or.inr (Or.inr (Or.inr (Or.inl ⟨e, ec, hend, by rw [h]⟩))))
  · exact Or.inr (Or.inr (Or.inr (Or.inr (Or.inr ⟨ec, hend, by rw [h]⟩))))

/-- C16, on a handle whose second `Rcpt` fails: the attempt is `Mail`, the first
`Rcpt`, the failed second `Rcpt` and `Quit`, the writer is never opened, the
body is never read, and the error of that `Rcpt` is returned. -/
theorem forwardTo_first_error_witness :
    (exampleSession []).forwardTo (some secondRcptFailClient) brokenBody =
      { err := some "rcpt refused",
        trace := [Step.op (.mail "a@x" {}) none, Step.op (.rcpt "b@y") none,
          Step.op (.rcpt "c@z") (some "rcpt refused"), Step.op .quit none] } ∧
    ∃ body eq, ((exampleSession []).forwardTo (some secondRcptFailClient) brokenBody).trace =
        body ++ [Step.op Op.quit eq] ∧
      ((exampleSession []).forwardTo (some secondRcptFailClient) brokenBody).err =
        firstError body :=
  ⟨by decide,
   match forwardTo_first_error (exampleSession []) secondRcptFailClient brokenBody with
   | ⟨body, eq, h1, h2, _⟩ => ⟨body, eq, h1, h2⟩⟩

/-- C17. With exactly one accepting worker and a non-nil handle: if `Mail`, a
`Rcpt` or `Data` (opening the writer) fails on the handle with error `e`, then
`Data` returns `e` and made no `Read` call on the input stream; and every `Read`
of the attempt comes after the successful `Data` on the handle. -/
theorem Data_single_no_read_before_writer (s : session) (r : Reader) (w : Worker) (c : Client)
    (hone : s.workers.filter (fun w => w.accept s.from_ s.opts s.to_) = [w])
    (hc : w.newClient = some c) :
    (∀ o e, Step.op o (some e) ∈ (s.forwardTo (some c) r).trace →
      ((∃ f op, o = Op.mail f op) ∨ (∃ t, o = Op.rcpt t) ∨ o = Op.data) →
      (s.Data r).err = some e ∧ (s.Data r).inputReads = []) ∧
    (∀ pre res post, (s.forwardTo (some c) r).trace = pre ++ Step.read res :: post →
      Step.op Op.data none ∈ pre) := by
  obtain ⟨i, hacc⟩ := accepting_single s w hone
  rw [Data_one s r i w hacc, hc, forwardTo_some]
  generalize c.reply (opsOf (s.deliver c r).trace) Op.quit = eq
  have hopen : ∀ (rest pre post : List Step) (res : ReadResult),
      [Step.op (.mail s.from_ s.opts) none] ++ rcptSteps s.to_ ++ [Step.op .data none] ++ rest =
        pre ++ Step.read res :: post → Step.op Op.data none ∈ pre := by
    intro rest pre post res h
    obtain ⟨mid, hmid⟩ := read_after_head _ rest pre post res (by simp [readsOf]) h
    rw [hmid]
    simp
  have hnoread : ∀ (tr pre post : List Step) (res : ReadResult), readsOf tr = [] →
      tr = pre ++ Step.read res :: post → Step.op Op.data none ∈ pre := by
    intro tr pre post res hr h
    rw [h] at hr
    simp [readsOf] at hr
  rcases deliver_cases s c r with ⟨e, h⟩ | ⟨j, t, e, hj, h⟩ | ⟨e, h⟩ | ⟨j, ch, e, ec, hj, hne, h⟩ |
    ⟨e, ec, hend, h⟩ | ⟨ec, hend, h⟩
  · rw [h]
    refine ⟨?_, fun pre res post hd => hnoread _ pre post res (by simp [readsOf]) hd⟩
    intro o e' hmem ho
    simp only [List.singleton_append, List.mem_cons, Step.op.injEq, List.mem_singleton,
      List.not_mem_nil, or_false] at hmem
    rcases hmem with ⟨_, he⟩ | ⟨ho', _⟩
    · cases he; exact ⟨rfl, by simp [readsOf]⟩
    · subst ho'; simp at ho
  · rw [h]
    refine ⟨?_, fun pre res post hd => hnoread _ pre post res (by simp [readsOf]) hd⟩
    intro o e' hmem ho
    simp only [List.mem_append, List.mem_singleton, Step.op.injEq] at hmem
    rcases hmem with ((hm | hm) | ⟨_, he⟩) | ⟨ho', _⟩
    · cases hm.2
    · obtain ⟨t', ht'⟩ := rcptSteps_mem _ _ hm; cases ht'
    · cases he; exact ⟨rfl, by simp [readsOf]⟩
    · subst ho'; simp at ho
  · rw [h]
    refine ⟨?_, fun pre res post hd => hnoread _ pre post res (by simp [readsOf]) hd⟩
    intro o e' hmem ho
    simp only [List.mem_append, List.mem_singleton, Step.op.injEq] at hmem
    rcases hmem with ((hm | hm) | ⟨_, he⟩) | ⟨ho', _⟩
    · cases hm.2
    · obtain ⟨t', ht'⟩ := rcptSteps_mem _ _ hm; cases ht'
    · cases he; exact ⟨rfl, by simp [readsOf]⟩
    · subst ho'; simp at ho
  · rw [h]
    refine ⟨?_, fun pre res post hd => hopen _ pre post res (by simpa using hd)⟩
    intro o e' hmem ho
    simp only [List.mem_append, List.mem_singleton, Step.op.injEq, List.mem_cons,
      List.not_mem_nil, or_false] at hmem
    rcases hmem with ((((hm | hm) | hm) | hm) | (hm | hm | hm)) | hm
    · cases hm.2
    · obtain ⟨t', ht'⟩ := rcptSteps_mem _ _ hm; cases ht'
    · cases hm.2
    · rcases copySteps_mem _ _ hm with ⟨q, hq⟩ | ⟨q, hq⟩ <;> cases hq
    · cases hm
    · rw [hm.1] at ho; simp at ho
    · rw [hm.1] at ho; simp at ho
    · rw [hm.1] at ho; simp at ho
  · rw [h]
    refine ⟨?_, fun pre res post hd => hopen _ pre post res (by simpa using hd)⟩
    intro o e' hmem ho
    simp only [List.mem_append, List.mem_singleton, Step.op.injEq, List.mem_cons,
      List.not_mem_nil, or_false] at hmem
    rcases hmem with ((((hm | hm) | hm) | hm) | (hm | hm)) | hm
    · cases hm.2
    · obtain ⟨t', ht'⟩ := rcptSteps_mem _ _ hm; cases ht'
    · cases hm.2
    · rcases copySteps_mem _ _ hm with ⟨q, hq⟩ | ⟨q, hq⟩ <;> cases hq
    · cases hm
    · rw [hm.1] at ho; simp at ho
    · rw [hm.1] at ho; simp at ho
  · rw [h]
    refine ⟨?_, fun pre res post hd => hopen _ pre post res (by simpa using hd)⟩
    intro o e' hmem ho
    simp only [List.mem_append, List.mem_singleton, Step.op.injEq, List.mem_cons,
      List.not_mem_nil, or_false] at hmem
    rcases hmem with ((((hm | hm) | hm) | hm) | (hm | hm)) | hm
    · cases hm.2
    · obtain ⟨t', ht'⟩ := rcptSteps_mem _ _ hm; cases ht'
    · cases hm.2
    · rcases copySteps_mem _ _ hm with ⟨q, hq⟩ | ⟨q, hq⟩ <;> cases hq
    · cases hm
    · rw [hm.1] at ho; simp at ho
    · rw [hm.1] at ho; simp at ho

/-- C17, on a handle that fails at `Data` and a body stream that would fail if it
were read. -/
theorem Data_single_no_read_before_writer_witness :
    ((exampleSession [acceptAll (some dataFailClient)]).Data brokenBody).err =
      some "data refused" ∧
    ((exampleSession [acceptAll (some dataFailClient)]).Data brokenBody).inputReads = [] :=
  (Data_single_no_read_before_writer (exampleSession [acceptAll (some dataFailClient)])
    brokenBody (acceptAll (some dataFailClient)) dataFailClient rfl rfl).1
    Op.data "data refused" (by decide) (Or.inr (Or.inr rfl))

/-- C18. When the attempt opened the body writer (`Data` succeeded on the
handle), its trace is `Mail`, the `Rcpt` calls and `Data`, all successful, then
the steps of the copy (reads and writes only), then one `Close`, then `Quit`:
the writer is closed exactly once, right before `Quit`.  When a step of the copy
fails, `forwardTo` returns the error of the copy and not the result of `Close`;
when no step of the copy fails, `forwardTo` returns the result of `Close`. -/
theorem forwardTo_closes_writer (s : session) (c : Client) (r : Reader)
    (hopen : Step.op Op.data none ∈ (s.forwardTo (some c) r).trace) :
    ∃ copy ec eq,
      (s.forwardTo (some c) r).trace =
        [Step.op (.mail s.from_ s.opts) none] ++ rcptSteps s.to_ ++ [Step.op .data none] ++
          copy ++ [Step.op Op.close ec, Step.op Op.quit eq] ∧
      (∀ o ∈ opsOf copy, ∃ bs, o = Op.write bs) ∧
      (∀ e, firstError copy = some e → (s.forwardTo (some c) r).err = some e) ∧
      (firstError copy = none → (s.forwardTo (some c) r).err = ec) := by
  rw [forwardTo_some] at hopen ⊢
  generalize c.reply (opsOf (s.deliver c r).trace) Op.quit = eq at hopen ⊢
  rcases deliver_cases s c r with ⟨e, h⟩ | ⟨j, t, e, hj, h⟩ | ⟨e, h⟩ | ⟨j, ch, e, ec, hj, hne, h⟩ |
    ⟨e, ec, hend, h⟩ | ⟨ec, hend, h⟩
  · rw [h] at hopen
    simp at hopen
  · rw [h] at hopen
    simp only [List.mem_append, List.mem_singleton, Step.op.injEq] at hopen
    rcases hopen with ((hm | hm) | hm) | hm
    · cases hm.1
    · obtain ⟨t', ht'⟩ := rcptSteps_mem _ _ hm; cases ht'
    · cases hm.1
    · cases hm.1
  · rw [h] at hopen
    simp only [List.mem_append, List.mem_singleton, Step.op.injEq] at hopen
    rcases hopen with ((hm | hm) | hm) | hm
    · cases hm.1
    · obtain ⟨t', ht'⟩ := rcptSteps_mem _ _ hm; cases ht'
    · cases hm.2
    · cases hm.1
  · rw [h]
    refine ⟨copySteps (r.chunks.take j) ++ [Step.read (.chunk ch), Step.op (.write ch) (some e)],
      ec, eq, by simp, ?_, ?_, ?_⟩
    · intro o ho
      simp only [opsOf_append, opsOf, List.mem_append, List.mem_singleton] at ho
      rcases ho with ho | ho
      · exact copySteps_only_writes _ o ho
      · exact ⟨ch, ho⟩
    · intro e' he'
      rw [firstError_clean_append _ _ (copySteps_failure _)] at he'
      simpa [firstError, Step.failure] using he'
    · intro hnone
      rw [firstError_clean_append _ _ (copySteps_failure _)] at hnone
      simp [firstError, Step.failure] at hnone
  · rw [h]
    refine ⟨copySteps r.chunks ++ [Step.read (.fail e)], ec, eq, by simp, ?_, ?_, ?_⟩
    · intro o ho
      simp only [opsOf_append, opsOf, List.append_nil] at ho
      exact copySteps_only_writes _ o ho
    · intro e' he'
      rw [firstError_clean_append _ _ (copySteps_failure _)] at he'
      simpa [firstError, Step.failure] using he'
    · intro hnone
      rw [firstError_clean_append _ _ (copySteps_failure _)] at hnone
      simp [firstError, Step.failure] at hnone
  · rw [h]
    refine ⟨copySteps r.chunks ++ [Step.read .eof], ec, eq, by simp, ?_, ?_, ?_⟩
    · intro o ho
      simp only [opsOf_append, opsOf, List.append_nil] at ho
      exact copySteps_only_writes _ o ho
    · intro e' he'
      rw [firstError_clean_append _ _ (copySteps_failure _)] at he'
      simp [firstError, Step.failure] at he'
    · intro _
      rfl

/-- C18, on a handle that never fails and a body stream that breaks after one
byte: the writer is closed, and the read error is returned, not the nil result
of `Close`. -/
theorem forwardTo_closes_writer_witness :
    ((exampleSession []).forwardTo (some okClient) brokenBody).err = some "connection reset" ∧
    ∃ copy ec eq,
      ((exampleSession []).forwardTo (some okClient) brokenBody).trace =
        [Step.op (.mail (exampleSession []).from_ (exampleSession []).opts) none] ++
          rcptSteps (exampleSession []).to_ ++ [Step.op .data none] ++
          copy ++ [Step.op Op.close ec, Step.op Op.quit eq] ∧
      (∀ o ∈ opsOf copy, ∃ bs, o = Op.write bs) ∧
      (∀ e, firstError copy = some e →
        ((exampleSession []).forwardTo (some okClient) brokenBody).err = some e) ∧
      (firstError copy = none →
        ((exampleSession []).forwardTo (some okClient) brokenBody).err = ec) :=
  ⟨by decide, forwardTo_closes_writer (exampleSession []) okClient brokenBody (by decide)⟩

end Dispatcher
